import Mathlib

/-!
Verification of the recipe-aligner corpus tooling.

This file gives a shallow embedding of the merge engine
(`scripts/merge_diff.py`), the removal engine (`scripts/remove_diff.py`),
the diff validator (`scripts/validate_diff.py`), the fuzzy matcher
(`scripts/ingredient_db.py`, `scripts/link_ingredients.py`, both built on
Python's `difflib.SequenceMatcher`), and the automatic equivalence
clusterer (`scripts/generate_equivalences.py`), together with proofs and
refutations of the specified properties.

Conventions of the embedding:
* JSON string fields that a script reads through `dict.get` are modelled
  by `StrField`, which distinguishes a key that is absent (`missing`),
  present with JSON `null` (`null`), and present with a string value
  (`str s`).  The distinction is observable in Python (`e.get(k, d)`
  returns `d` only when the key is absent) and matters for the dedup
  keys of the merge engine.
* Surrogate ids are `Int` (JSON numbers); Python floats produced by
  `ratio()` are modelled as rationals (`ℚ`), with exact arithmetic.
* Scripts' printed per-item reports are modelled as accumulated lists.
-/

/-- A JSON string field as seen through a Python `dict`:
the key may be absent, hold `null`, or hold a string. -/
inductive StrField where
  | missing : StrField
  | null : StrField
  | str : String → StrField
deriving DecidableEq

/-- Python `x.get(k) or ""` (equivalently `x.get(k, "") or ""`):
absent keys, `null` and the empty string all collapse to `""`. -/
def orEmpty : StrField → String
  | .missing => ""
  | .null => ""
  | .str s => s

/-- Python `x.get(k, "")` as a Python value (`none` models Python `None`):
an absent key yields `""`, a stored `null` stays `None`. -/
def amtKey : StrField → Option String
  | .missing => some ""
  | .null => none
  | .str s => some s

/-- Python `x.get(k)` (no default): an absent key reads as `None`,
so when the result is stored back, `missing` collapses to `null`. -/
def getOpt : StrField → StrField
  | .missing => .null
  | .null => .null
  | .str s => .str s

/-- A recipe row of `MASTER.json` (fields the scripts read). -/
structure Recipe where
  recipe_id : Int
  slug : String
  label : String
deriving DecidableEq

/-- An ingredient row of `MASTER.json`. -/
structure Ingredient where
  ingredient_id : Int
  slug : String
  label : String
  language : StrField
deriving DecidableEq

/-- An alias row of `MASTER.json`. -/
structure Alias where
  alias_id : Int
  ingredient_id : Int
  variant_label : String
  language : StrField
  source : StrField
deriving DecidableEq

/-- An entry row of `MASTER.json`. -/
structure Entry where
  entry_id : Int
  recipe_id : Int
  ingredient_id : Int
  amount_raw : StrField
  amount_value : StrField
  amount_unit : StrField
  preparation : StrField
  notes : StrField
  source_citation : StrField
  source_span : StrField
  added_at : StrField
  added_by : StrField
deriving DecidableEq

/-- The corpus (`MASTER.json`): four collections keyed by surrogate ids. -/
structure Master where
  recipes : List Recipe
  ingredients : List Ingredient
  aliases : List Alias
  entries : List Entry
deriving DecidableEq

/-- A diff recipe: natural keys only, ids are assigned at merge time. -/
structure DRecipe where
  slug : String
  label : String
deriving DecidableEq

/-- A diff ingredient. -/
structure DIngredient where
  slug : String
  label : String
  language : StrField
deriving DecidableEq

/-- A diff alias, referring to its ingredient by slug. -/
structure DAlias where
  ingredient_slug : String
  variant_label : String
  language : StrField
  source : StrField
deriving DecidableEq

/-- A diff entry, referring to recipe and ingredient by slug. -/
structure DEntry where
  recipe_slug : String
  ingredient_slug : String
  amount_raw : StrField
  amount_value : StrField
  amount_unit : StrField
  preparation : StrField
  notes : StrField
  source_citation : StrField
  source_span : StrField
deriving DecidableEq

/-- A diff file: the same four arrays, with natural-key references. -/
structure Diff where
  recipes : List DRecipe
  ingredients : List DIngredient
  aliases : List DAlias
  entries : List DEntry
deriving DecidableEq

/-- `merge_diff.next_id`:
`(max([x.get(key, 0) for x in arr]) + 1) if arr else 1`.
`getId` models `x.get(key, 0)` for the given entity set. -/
def next_id (arr : List α) (getId : α → Int) : Int :=
  match arr.map getId with
  | [] => 1
  | v :: vs => vs.foldl max v + 1

/-- `idx_by` / the dict comprehensions `{x[key]: x for x in arr}`:
a later row with the same key overwrites an earlier one. -/
def dictOf (l : List α) (key : α → String) : String → Option α :=
  fun s => (l.filter (fun x => key x = s)).getLast?

/-- Modelled from the spec:
`allocate_id(entitySet) = max(existing ids, default 0) + 1`
(the default applies when the entity set is empty). -/
def allocate_id (vals : List Int) : Int :=
  (match vals with
   | [] => 0
   | v :: vs => vs.foldl max v) + 1

theorem foldl_max_le_init : ∀ (xs : List Int) (a : Int), a ≤ xs.foldl max a := by
  intro xs
  induction xs with
  | nil => intro a; exact le_refl a
  | cons x xs ih =>
    intro a
    calc a ≤ max a x := le_max_left a x
    _ ≤ (x :: xs).foldl max a := by simpa using ih (max a x)

theorem mem_le_foldl_max {v : Int} : ∀ (xs : List Int) (a : Int), v ∈ xs → v ≤ xs.foldl max a := by
  intro xs
  induction xs with
  | nil => intro a h; cases h
  | cons x xs ih =>
    intro a h
    rcases List.mem_cons.mp h with h | h
    · subst h
      calc v ≤ max a v := le_max_right a v
      _ ≤ xs.foldl max (max a v) := foldl_max_le_init xs (max a v)
      _ = (v :: xs).foldl max a := by simp
    · simpa using ih (max a x) h

/-- Claim C6: a freshly allocated surrogate id equals
`max(existing ids, default 0) + 1`, where a row missing the id field is
counted as `0`; it is strictly greater than every id present in the
entity set, and it is `1` for an empty set. -/
theorem next_id_fresh (ids : List (Option Int)) :
    (∀ o ∈ ids, ∀ v : Int, o = some v → v < next_id ids (fun o => o.getD 0)) ∧
    (ids = [] → next_id ids (fun o => o.getD 0) = 1) ∧
    next_id ids (fun o => o.getD 0) = allocate_id (ids.map (fun o => o.getD 0)) := by
  refine ⟨?_, ?_, ?_⟩
  · intro o ho v hv
    subst hv
    have hvmem : v ∈ ids.map (fun o => o.getD 0) := by
      exact List.mem_map.mpr ⟨some v, ho, rfl⟩
    unfold next_id
    rcases h : ids.map (fun o => o.getD 0) with _ | ⟨w, ws⟩
    · rw [h] at hvmem; cases hvmem
    · rw [h] at hvmem
      simp only [h]
      rcases List.mem_cons.mp hvmem with h1 | h1
      · subst h1
        have := foldl_max_le_init ws v
        omega
      · have := mem_le_foldl_max ws w h1
        omega
  · intro h; subst h; rfl
  · unfold next_id allocate_id
    rcases h : ids.map (fun o => o.getD 0) with _ | ⟨w, ws⟩ <;> simp only [h] <;> omega

/-- Witness for C6: with ids `{5, missing}` the allocated id is `6`,
strictly above the present id `5`. -/
theorem next_id_fresh_witness :
    (5 : Int) < next_id [some 5, none] (fun o => o.getD 0) :=
  (next_id_fresh [some 5, none]).1 (some 5) (by decide) 5 rfl

/-! ### Merge engine (`scripts/merge_diff.py`) -/

/-- State threaded through step 1 (recipes) of `merge_diff.merge`. -/
structure RecipePass where
  recipes : List Recipe
  by_slug : String → Option Recipe
  added : Nat
  skipped : Nat

/-- Step 1 of `merge_diff.merge`: a diff recipe with an unseen slug is
inserted with a fresh id and registered in `recipes_by_slug`; a known
slug is skipped silently (no field overwrite). -/
def mergeRecipes : List DRecipe → RecipePass → RecipePass
  | [], st => st
  | r :: rs, st =>
    match st.by_slug r.slug with
    | none =>
      let new_id := next_id st.recipes (fun x => x.recipe_id)
      let new : Recipe := ⟨new_id, r.slug, r.label⟩
      mergeRecipes rs ⟨st.recipes ++ [new],
        fun s => if s = r.slug then some new else st.by_slug s,
        st.added + 1, st.skipped⟩
    | some _ => mergeRecipes rs { st with skipped := st.skipped + 1 }

/-- State threaded through step 2 (ingredients) of `merge_diff.merge`. -/
structure IngredientPass where
  ingredients : List Ingredient
  by_slug : String → Option Ingredient
  added : Nat
  skipped : Nat
  collisions : List String

/-- Step 2 of `merge_diff.merge`: same dedup rule as recipes; a label
mismatch on a known slug is recorded (printed) as a collision warning,
and the existing row still wins. -/
def mergeIngredients : List DIngredient → IngredientPass → IngredientPass
  | [], st => st
  | ing :: rest, st =>
    match st.by_slug ing.slug with
    | some existing =>
      let collisions :=
        if existing.label = ing.label then st.collisions
        else st.collisions ++ [ing.slug]
      mergeIngredients rest
        { st with collisions := collisions, skipped := st.skipped + 1 }
    | none =>
      let new_id := next_id st.ingredients (fun x => x.ingredient_id)
      let new : Ingredient := ⟨new_id, ing.slug, ing.label, ing.language⟩
      mergeIngredients rest ⟨st.ingredients ++ [new],
        fun s => if s = ing.slug then some new else st.by_slug s,
        st.added + 1, st.skipped, st.collisions⟩

/-- State threaded through step 3 (aliases) of `merge_diff.merge`.
`seen` models the `seen_alias` set of `(ingredient_id, variant_label)`
keys. -/
structure AliasPass where
  aliases : List Alias
  seen : List (Int × String)
  added : Nat
  skipped : Nat
  errors : List String

/-- Step 3 of `merge_diff.merge`: resolve `ingredient_slug` against the
updated ingredient index; an unresolved slug drops the alias with a
per-item error; a duplicate `(ingredient_id, variant_label)` key is
skipped. -/
def mergeAliases (iDict : String → Option Ingredient) :
    List DAlias → AliasPass → AliasPass
  | [], st => st
  | a :: rest, st =>
    match iDict a.ingredient_slug with
    | none =>
      mergeAliases iDict rest
        { st with errors := st.errors ++
            ["Skipping alias - unknown ingredient_slug: " ++ a.ingredient_slug] }
    | some ing =>
      let key := (ing.ingredient_id, a.variant_label)
      if key ∈ st.seen then
        mergeAliases iDict rest { st with skipped := st.skipped + 1 }
      else
        let new_id := next_id st.aliases (fun x => x.alias_id)
        let new : Alias := ⟨new_id, ing.ingredient_id, a.variant_label,
          getOpt a.language, getOpt a.source⟩
        mergeAliases iDict rest
          ⟨st.aliases ++ [new], key :: st.seen, st.added + 1, st.skipped, st.errors⟩

/-- The dedup key of an entry on the master side:
`(e["recipe_id"], e["ingredient_id"], e.get("amount_raw", ""),
e.get("preparation", "") or "")`.  The third component is a Python value
that may be `None` (a stored `null` is not coalesced to `""`). -/
def EKey : Type := Int × Int × Option String × String

instance : DecidableEq EKey := by unfold EKey; infer_instance

/-- The master-side dedup key of a stored entry row. -/
def mergeKeyOfEntry (x : Entry) : EKey :=
  (x.recipe_id, x.ingredient_id, amtKey x.amount_raw, orEmpty x.preparation)

/-- State threaded through step 4 (entries) of `merge_diff.merge`. -/
structure EntryPass where
  entries : List Entry
  seen : List EKey
  added : Nat
  skipped : Nat
  errors : List String

/-- Step 4 of `merge_diff.merge`: resolve both slugs (unresolved → drop
with per-item error); dedup on `(recipe_id, ingredient_id, amount_raw,
preparation)`; surviving entries are stamped with timestamp and
provenance tag. -/
def mergeEntries (now added_by : String) (rDict : String → Option Recipe)
    (iDict : String → Option Ingredient) :
    List DEntry → EntryPass → EntryPass
  | [], st => st
  | e :: rest, st =>
    match rDict e.recipe_slug with
    | none =>
      mergeEntries now added_by rDict iDict rest
        { st with errors := st.errors ++
            ["Skipping entry - unknown recipe_slug: " ++ e.recipe_slug] }
    | some r =>
      match iDict e.ingredient_slug with
      | none =>
        mergeEntries now added_by rDict iDict rest
          { st with errors := st.errors ++
              ["Skipping entry - unknown ingredient_slug: " ++ e.ingredient_slug] }
      | some i =>
        let tup : EKey :=
          (r.recipe_id, i.ingredient_id, amtKey e.amount_raw, orEmpty e.preparation)
        if tup ∈ st.seen then
          mergeEntries now added_by rDict iDict rest
            { st with skipped := st.skipped + 1 }
        else
          let new_id := next_id st.entries (fun x => x.entry_id)
          let new : Entry := ⟨new_id, r.recipe_id, i.ingredient_id,
            getOpt e.amount_raw, getOpt e.amount_value, getOpt e.amount_unit,
            getOpt e.preparation, getOpt e.notes, getOpt e.source_citation,
            getOpt e.source_span, .str now, .str added_by⟩
          mergeEntries now added_by rDict iDict rest
            ⟨st.entries ++ [new], tup :: st.seen, st.added + 1, st.skipped, st.errors⟩

/-- The per-item findings and counters `merge_diff.merge` prints. -/
structure MergeReport where
  added_recipes : Nat
  added_ingredients : Nat
  added_aliases : Nat
  added_entries : Nat
  skipped_recipes : Nat
  skipped_ingredients : Nat
  skipped_aliases : Nat
  skipped_entries : Nat
  label_collisions : List String
  alias_errors : List String
  entry_errors : List String
deriving DecidableEq

/-- `merge_diff.merge` (I/O stripped): the four passes in their fixed
order — recipes, ingredients, aliases (against the updated ingredient
index), entries (against both updated indexes).  `now` models the
`datetime.utcnow()` timestamp, `added_by` the provenance tag. -/
def merge (now added_by : String) (master : Master) (diff : Diff) :
    Master × MergeReport :=
  let rp := mergeRecipes diff.recipes
    ⟨master.recipes, dictOf master.recipes (fun x => x.slug), 0, 0⟩
  let ip := mergeIngredients diff.ingredients
    ⟨master.ingredients, dictOf master.ingredients (fun x => x.slug), 0, 0, []⟩
  let ap := mergeAliases ip.by_slug diff.aliases
    ⟨master.aliases, master.aliases.map (fun a => (a.ingredient_id, a.variant_label)),
     0, 0, []⟩
  let ep := mergeEntries now added_by rp.by_slug ip.by_slug diff.entries
    ⟨master.entries, master.entries.map mergeKeyOfEntry, 0, 0, []⟩
  (⟨rp.recipes, ip.ingredients, ap.aliases, ep.entries⟩,
   ⟨rp.added, ip.added, ap.added, ep.added,
    rp.skipped, ip.skipped, ap.skipped, ep.skipped,
    ip.collisions, ap.errors, ep.errors⟩)

/-- The empty corpus. -/
def emptyMaster : Master := ⟨[], [], [], []⟩

/-- A diff whose single entry omits the `amount_raw` key entirely. -/
def diffMissingAmount : Diff :=
  ⟨[⟨"r", "Recipe R"⟩],
   [⟨"i", "Ingredient I", .missing⟩],
   [],
   [⟨"r", "i", .missing, .missing, .missing, .missing, .missing, .missing, .missing⟩]⟩

/-- Claim C1 (code bug): merging the same diff twice is not idempotent
when a diff entry omits the `amount_raw` key.  The first merge stores
`amount_raw = None` (it writes `e.get("amount_raw")`), but both dedup
keys are built with `e.get("amount_raw", "")`, so on re-merge the stored
row yields key component `None` while the identical diff entry yields
`""`; the entry is re-added instead of deduplicated. -/
theorem merge_readds_entry_with_missing_amount :
    ((merge "t0" "gpt" emptyMaster diffMissingAmount).1.entries.length = 1) ∧
    ((merge "t1" "gpt" (merge "t0" "gpt" emptyMaster diffMissingAmount).1
        diffMissingAmount).1.entries.length = 2) := by
  decide

theorem orEmpty_getOpt (x : StrField) : orEmpty (getOpt x) = orEmpty x := by
  cases x <;> rfl

theorem amtKey_getD (x : StrField) : (amtKey x).getD "" = orEmpty x := by
  cases x <;> rfl

theorem dictOf_some {l : List α} {key : α → String} {s : String} {x : α}
    (h : dictOf l key s = some x) : x ∈ l ∧ key x = s := by
  unfold dictOf at h
  have hx : x ∈ l.filter (fun y => key y = s) :=
    List.mem_of_getLast?_eq_some h
  refine ⟨List.mem_of_mem_filter hx, ?_⟩
  have := List.of_mem_filter hx
  simpa using this

theorem dictOf_isSome {l : List α} {key : α → String} {s : String} :
    ((dictOf l key s).isSome = true) ↔ ∃ x ∈ l, key x = s := by
  unfold dictOf
  rw [List.getLast?_isSome]
  constructor
  · intro h
    rcases List.exists_mem_of_ne_nil _ h with ⟨x, hx⟩
    exact ⟨x, List.mem_of_mem_filter hx, by simpa using List.of_mem_filter hx⟩
  · rintro ⟨x, hx, hk⟩
    intro hnil
    have : x ∈ l.filter (fun y => key y = s) := by
      exact List.mem_filter.mpr ⟨hx, by simpa using hk⟩
    rw [hnil] at this
    cases this

/-- The recipe index always returns rows of the current recipe list,
keyed by their slug. -/
def RDictOk (st : RecipePass) : Prop :=
  ∀ s x, st.by_slug s = some x → x ∈ st.recipes ∧ x.slug = s

theorem mergeRecipes_recipes_sub :
    ∀ (rs : List DRecipe) (st : RecipePass) {x : Recipe},
      x ∈ st.recipes → x ∈ (mergeRecipes rs st).recipes := by
  intro rs
  induction rs with
  | nil => intro st x hx; simpa [mergeRecipes] using hx
  | cons r rs ih =>
    intro st x hx
    simp only [mergeRecipes]
    cases h : st.by_slug r.slug with
    | none => exact ih _ (by simp [hx])
    | some _ => exact ih _ hx

theorem mergeRecipes_dictOk :
    ∀ (rs : List DRecipe) (st : RecipePass), RDictOk st →
      RDictOk (mergeRecipes rs st) := by
  intro rs
  induction rs with
  | nil => intro st h; simpa [mergeRecipes] using h
  | cons r rs ih =>
    intro st hst
    simp only [mergeRecipes]
    cases h : st.by_slug r.slug with
    | none =>
      apply ih
      intro s x hx
      by_cases hs : s = r.slug
      · subst hs
        simp only [if_pos rfl] at hx
        cases hx
        exact ⟨by simp, rfl⟩
      · simp only [if_neg hs] at hx
        rcases hst s x hx with ⟨h1, h2⟩
        exact ⟨by simp [h1], h2⟩
    | some _ => exact ih _ hst

theorem mergeRecipes_known :
    ∀ (rs : List DRecipe) (st : RecipePass) (s : String),
      ((mergeRecipes rs st).by_slug s).isSome = true ↔
        ((st.by_slug s).isSome = true ∨ ∃ r ∈ rs, r.slug = s) := by
  intro rs
  induction rs with
  | nil => intro st s; simp [mergeRecipes]
  | cons r rs ih =>
    intro st s
    simp only [mergeRecipes]
    cases h : st.by_slug r.slug with
    | none =>
      rw [ih]
      by_cases hs : s = r.slug
      · subst hs
        simp [h]
      · constructor
        · rintro (h1 | h1)
          · simp only [if_neg hs] at h1
            exact Or.inl h1
          · exact Or.inr ⟨_, by simp [h1.choose_spec], h1.choose_spec.2⟩
        · rintro (h1 | ⟨r1, hr1, hr2⟩)
          · exact Or.inl (by simp [if_neg hs, h1])
          · rcases List.mem_cons.mp hr1 with h2 | h2
            · subst h2; exact absurd hr2.symm hs
            · exact Or.inr ⟨r1, h2, hr2⟩
    | some v =>
      rw [ih]
      constructor
      · rintro (h1 | h1)
        · exact Or.inl h1
        · exact Or.inr ⟨_, by simp [h1.choose_spec], h1.choose_spec.2⟩
      · rintro (h1 | ⟨r1, hr1, hr2⟩)
        · exact Or.inl h1
        · rcases List.mem_cons.mp hr1 with h2 | h2
          · subst h2
            apply Or.inl
            rw [← hr2]
            simp [h]
          · exact Or.inr ⟨r1, h2, hr2⟩

/-- The ingredient index always returns rows of the current ingredient
list, keyed by their slug. -/
def IDictOk (st : IngredientPass) : Prop :=
  ∀ s x, st.by_slug s = some x → x ∈ st.ingredients ∧ x.slug = s

theorem mergeIngredients_ingredients_sub :
    ∀ (rs : List DIngredient) (st : IngredientPass) {x : Ingredient},
      x ∈ st.ingredients → x ∈ (mergeIngredients rs st).ingredients := by
  intro rs
  induction rs with
  | nil => intro st x hx; simpa [mergeIngredients] using hx
  | cons r rs ih =>
    intro st x hx
    simp only [mergeIngredients]
    cases h : st.by_slug r.slug with
    | none => exact ih _ (by simp [hx])
    | some _ => exact ih _ hx

theorem mergeIngredients_dictOk :
    ∀ (rs : List DIngredient) (st : IngredientPass), IDictOk st →
      IDictOk (mergeIngredients rs st) := by
  intro rs
  induction rs with
  | nil => intro st h; simpa [mergeIngredients] using h
  | cons r rs ih =>
    intro st hst
    simp only [mergeIngredients]
    cases h : st.by_slug r.slug with
    | none =>
      apply ih
      intro s x hx
      by_cases hs : s = r.slug
      · subst hs
        simp only [if_pos rfl] at hx
        cases hx
        exact ⟨by simp, rfl⟩
      · simp only [if_neg hs] at hx
        rcases hst s x hx with ⟨h1, h2⟩
        exact ⟨by simp [h1], h2⟩
    | some _ => exact ih _ hst

theorem mergeIngredients_known :
    ∀ (rs : List DIngredient) (st : IngredientPass) (s : String),
      ((mergeIngredients rs st).by_slug s).isSome = true ↔
        ((st.by_slug s).isSome = true ∨ ∃ r ∈ rs, r.slug = s) := by
  intro rs
  induction rs with
  | nil => intro st s; simp [mergeIngredients]
  | cons r rs ih =>
    intro st s
    simp only [mergeIngredients]
    cases h : st.by_slug r.slug with
    | some v =>
      rw [ih]
      constructor
      · rintro (h1 | h1)
        · exact Or.inl h1
        · exact Or.inr ⟨_, by simp [h1.choose_spec], h1.choose_spec.2⟩
      · rintro (h1 | ⟨r1, hr1, hr2⟩)
        · exact Or.inl h1
        · rcases List.mem_cons.mp hr1 with h2 | h2
          · subst h2
            apply Or.inl
            rw [← hr2]
            simp [h]
          · exact Or.inr ⟨r1, h2, hr2⟩
    | none =>
      rw [ih]
      by_cases hs : s = r.slug
      · subst hs
        simp [h]
      · constructor
        · rintro (h1 | h1)
          · simp only [if_neg hs] at h1
            exact Or.inl h1
          · exact Or.inr ⟨_, by simp [h1.choose_spec], h1.choose_spec.2⟩
        · rintro (h1 | ⟨r1, hr1, hr2⟩)
          · exact Or.inl (by simp [if_neg hs, h1])
          · rcases List.mem_cons.mp hr1 with h2 | h2
            · subst h2; exact absurd hr2.symm hs
            · exact Or.inr ⟨r1, h2, hr2⟩

/-- Every key in `seen_entry` is backed by a stored entry row whose
coalesced amount/preparation agree with the key. -/
def SeenOk (st : EntryPass) : Prop :=
  ∀ k ∈ st.seen, ∃ row ∈ st.entries,
    row.recipe_id = k.1 ∧ row.ingredient_id = k.2.1 ∧
    orEmpty row.amount_raw = k.2.2.1.getD "" ∧ orEmpty row.preparation = k.2.2.2

theorem mergeEntries_entries_sub (now aby : String)
    (rDict : String → Option Recipe) (iDict : String → Option Ingredient) :
    ∀ (rows : List DEntry) (st : EntryPass) {x : Entry},
      x ∈ st.entries → x ∈ (mergeEntries now aby rDict iDict rows st).entries := by
  intro rows
  induction rows with
  | nil => intro st x hx; simpa [mergeEntries] using hx
  | cons e rest ih =>
    intro st x hx
    simp only [mergeEntries]
    cases hr : rDict e.recipe_slug with
    | none => exact ih _ hx
    | some r =>
      cases hi : iDict e.ingredient_slug with
      | none => exact ih _ hx
      | some i =>
        by_cases htup :
            (r.recipe_id, i.ingredient_id, amtKey e.amount_raw, orEmpty e.preparation) ∈ st.seen
        · simp only [if_pos htup]
          exact ih _ hx
        · simp only [if_neg htup]
          exact ih _ (by simp [hx])

theorem mergeEntries_errors_sub (now aby : String)
    (rDict : String → Option Recipe) (iDict : String → Option Ingredient) :
    ∀ (rows : List DEntry) (st : EntryPass) {m : String},
      m ∈ st.errors → m ∈ (mergeEntries now aby rDict iDict rows st).errors := by
  intro rows
  induction rows with
  | nil => intro st m hm; simpa [mergeEntries] using hm
  | cons e rest ih =>
    intro st m hm
    simp only [mergeEntries]
    cases hr : rDict e.recipe_slug with
    | none => exact ih _ (by simp [hm])
    | some r =>
      cases hi : iDict e.ingredient_slug with
      | none => exact ih _ (by simp [hm])
      | some i =>
        by_cases htup :
            (r.recipe_id, i.ingredient_id, amtKey e.amount_raw, orEmpty e.preparation) ∈ st.seen
        · simp only [if_pos htup]
          exact ih _ hm
        · simp only [if_neg htup]
          exact ih _ hm

theorem mergeEntries_length (now aby : String)
    (rDict : String → Option Recipe) (iDict : String → Option Ingredient) :
    ∀ (rows : List DEntry) (st : EntryPass),
      (mergeEntries now aby rDict iDict rows st).entries.length + st.added =
        st.entries.length + (mergeEntries now aby rDict iDict rows st).added := by
  intro rows
  induction rows with
  | nil => intro st; simp [mergeEntries]
  | cons e rest ih =>
    intro st
    simp only [mergeEntries]
    cases hr : rDict e.recipe_slug with
    | none => simpa using ih _
    | some r =>
      cases hi : iDict e.ingredient_slug with
      | none => simpa using ih _
      | some i =>
        by_cases htup :
            (r.recipe_id, i.ingredient_id, amtKey e.amount_raw, orEmpty e.preparation) ∈ st.seen
        · simp only [if_pos htup]
          simpa using ih _
        · simp only [if_neg htup]
          have := ih (⟨st.entries ++ [⟨next_id st.entries (fun x => x.entry_id),
            r.recipe_id, i.ingredient_id,
            getOpt e.amount_raw, getOpt e.amount_value, getOpt e.amount_unit,
            getOpt e.preparation, getOpt e.notes, getOpt e.source_citation,
            getOpt e.source_span, .str now, .str aby⟩],
            (r.recipe_id, i.ingredient_id, amtKey e.amount_raw, orEmpty e.preparation) :: st.seen,
            st.added + 1, st.skipped, st.errors⟩)
          simp only [List.length_append, List.length_cons, List.length_nil] at this ⊢
          omega

theorem mergeEntries_main (now aby : String)
    (rDict : String → Option Recipe) (iDict : String → Option Ingredient) :
    ∀ (rows : List DEntry) (st : EntryPass), SeenOk st →
      ∀ e ∈ rows,
        (rDict e.recipe_slug = none →
          ("Skipping entry - unknown recipe_slug: " ++ e.recipe_slug) ∈
            (mergeEntries now aby rDict iDict rows st).errors) ∧
        (∀ r, rDict e.recipe_slug = some r → iDict e.ingredient_slug = none →
          ("Skipping entry - unknown ingredient_slug: " ++ e.ingredient_slug) ∈
            (mergeEntries now aby rDict iDict rows st).errors) ∧
        (∀ r i, rDict e.recipe_slug = some r → iDict e.ingredient_slug = some i →
          ∃ row ∈ (mergeEntries now aby rDict iDict rows st).entries,
            row.recipe_id = r.recipe_id ∧ row.ingredient_id = i.ingredient_id ∧
            orEmpty row.amount_raw = orEmpty e.amount_raw ∧
            orEmpty row.preparation = orEmpty e.preparation) := by
  intro rows
  induction rows with
  | nil => intro st hseen e he; cases he
  | cons e0 rest ih =>
    intro st hseen e he
    rcases List.mem_cons.mp he with he | he
    · subst he
      refine ⟨?_, ?_, ?_⟩
      · intro hr
        simp only [mergeEntries, hr]
        exact mergeEntries_errors_sub now aby rDict iDict rest _ (by simp)
      · intro r hr hi
        simp only [mergeEntries, hr, hi]
        exact mergeEntries_errors_sub now aby rDict iDict rest _ (by simp)
      · intro r i hr hi
        simp only [mergeEntries, hr, hi]
        by_cases htup :
            (r.recipe_id, i.ingredient_id, amtKey e.amount_raw, orEmpty e.preparation) ∈ st.seen
        · simp only [if_pos htup]
          rcases hseen _ htup with ⟨row, hrow, h1, h2, h3, h4⟩
          refine ⟨row, mergeEntries_entries_sub now aby rDict iDict rest _ hrow, h1, h2, ?_, h4⟩
          rw [h3, amtKey_getD]
        · simp only [if_neg htup]
          refine ⟨_, mergeEntries_entries_sub now aby rDict iDict rest _
            (List.mem_append.mpr (Or.inr (List.mem_singleton.mpr rfl))),
            rfl, rfl, ?_, ?_⟩
          · exact orEmpty_getOpt e.amount_raw
          · exact orEmpty_getOpt e.preparation
    · -- `e` is in the tail: recurse with the transformed state.
      simp only [mergeEntries]
      cases hr : rDict e0.recipe_slug with
      | none =>
        exact ih _ (by intro k hk; exact hseen k hk) e he
      | some r =>
        cases hi : iDict e0.ingredient_slug with
        | none =>
          exact ih _ (by intro k hk; exact hseen k hk) e he
        | some i =>
          by_cases htup :
              (r.recipe_id, i.ingredient_id, amtKey e0.amount_raw, orEmpty e0.preparation) ∈ st.seen
          · simp only [if_pos htup]
            exact ih _ (by intro k hk; exact hseen k hk) e he
          · simp only [if_neg htup]
            refine ih _ ?_ e he
            intro k hk
            rcases List.mem_cons.mp hk with hk | hk
            · subst hk
              refine ⟨_, List.mem_append.mpr (Or.inr (List.mem_singleton.mpr rfl)),
                rfl, rfl, ?_, ?_⟩
              · rw [orEmpty_getOpt, amtKey_getD]
              · exact orEmpty_getOpt e0.preparation
            · rcases hseen k hk with ⟨row, hrow, hP⟩
              exact ⟨row, by simp [hrow], hP⟩

theorem mergeEntries_length_zero (now aby : String)
    (rDict : String → Option Recipe) (iDict : String → Option Ingredient)
    (rows : List DEntry) (entries : List Entry) (seen : List EKey) (errs : List String) :
    (mergeEntries now aby rDict iDict rows ⟨entries, seen, 0, 0, errs⟩).entries.length =
      entries.length +
        (mergeEntries now aby rDict iDict rows ⟨entries, seen, 0, 0, errs⟩).added := by
  have h := mergeEntries_length now aby rDict iDict rows ⟨entries, seen, 0, 0, errs⟩
  simpa using h

/-- Claim C4: a diff entry whose `recipe_slug` or `ingredient_slug`
resolves neither among the just-merged diff recipes/ingredients nor in
the existing corpus is dropped with a recorded per-item error; every
diff entry whose references do resolve is committed (a row with the
resolved ids and coalesced amount/preparation is present afterwards);
and the merge terminates normally, growing the entry collection by
exactly the reported number of additions (the embedding is a total
function: no exception path exists, matching the zero exit status). -/
theorem merge_skips_unresolved_entries (now aby : String) (m : Master) (d : Diff) :
    (∀ e ∈ d.entries,
      (¬ ∃ r ∈ m.recipes, r.slug = e.recipe_slug) →
      (¬ ∃ r ∈ d.recipes, r.slug = e.recipe_slug) →
      ("Skipping entry - unknown recipe_slug: " ++ e.recipe_slug) ∈
        (merge now aby m d).2.entry_errors) ∧
    (∀ e ∈ d.entries,
      ((∃ r ∈ m.recipes, r.slug = e.recipe_slug) ∨ ∃ r ∈ d.recipes, r.slug = e.recipe_slug) →
      (¬ ∃ i ∈ m.ingredients, i.slug = e.ingredient_slug) →
      (¬ ∃ i ∈ d.ingredients, i.slug = e.ingredient_slug) →
      ("Skipping entry - unknown ingredient_slug: " ++ e.ingredient_slug) ∈
        (merge now aby m d).2.entry_errors) ∧
    (∀ e ∈ d.entries,
      ((∃ r ∈ m.recipes, r.slug = e.recipe_slug) ∨ ∃ r ∈ d.recipes, r.slug = e.recipe_slug) →
      ((∃ i ∈ m.ingredients, i.slug = e.ingredient_slug) ∨
        ∃ i ∈ d.ingredients, i.slug = e.ingredient_slug) →
      ∃ row ∈ (merge now aby m d).1.entries, ∃ rr ∈ (merge now aby m d).1.recipes,
        ∃ ii ∈ (merge now aby m d).1.ingredients,
          rr.slug = e.recipe_slug ∧ ii.slug = e.ingredient_slug ∧
          row.recipe_id = rr.recipe_id ∧ row.ingredient_id = ii.ingredient_id ∧
          orEmpty row.amount_raw = orEmpty e.amount_raw ∧
          orEmpty row.preparation = orEmpty e.preparation) ∧
    (merge now aby m d).1.entries.length =
      m.entries.length + (merge now aby m d).2.added_entries := by
  have hrknown : ∀ s : String,
      (((mergeRecipes d.recipes
          ⟨m.recipes, dictOf m.recipes (fun x => x.slug), 0, 0⟩).by_slug s).isSome = true) ↔
        ((∃ x ∈ m.recipes, x.slug = s) ∨ ∃ r ∈ d.recipes, r.slug = s) := by
    intro s
    exact Iff.trans (mergeRecipes_known d.recipes _ s) (or_congr dictOf_isSome Iff.rfl)
  have hiknown : ∀ s : String,
      (((mergeIngredients d.ingredients
          ⟨m.ingredients, dictOf m.ingredients (fun x => x.slug), 0, 0, []⟩).by_slug s).isSome
          = true) ↔
        ((∃ x ∈ m.ingredients, x.slug = s) ∨ ∃ r ∈ d.ingredients, r.slug = s) := by
    intro s
    exact Iff.trans (mergeIngredients_known d.ingredients _ s) (or_congr dictOf_isSome Iff.rfl)
  have hseen0 : SeenOk ⟨m.entries, m.entries.map mergeKeyOfEntry, 0, 0, []⟩ := by
    intro k hk
    rcases List.mem_map.mp hk with ⟨row, hrow, hkey⟩
    subst hkey
    exact ⟨row, hrow, rfl, rfl, (amtKey_getD _).symm, rfl⟩
  have hrdictOk : RDictOk (mergeRecipes d.recipes
      ⟨m.recipes, dictOf m.recipes (fun x => x.slug), 0, 0⟩) :=
    mergeRecipes_dictOk d.recipes _ (fun s x hx => dictOf_some hx)
  have hidictOk : IDictOk (mergeIngredients d.ingredients
      ⟨m.ingredients, dictOf m.ingredients (fun x => x.slug), 0, 0, []⟩) :=
    mergeIngredients_dictOk d.ingredients _ (fun s x hx => dictOf_some hx)
  refine ⟨?_, ?_, ?_, ?_⟩
  · intro e he hnm hnd
    have hnone : (mergeRecipes d.recipes
        ⟨m.recipes, dictOf m.recipes (fun x => x.slug), 0, 0⟩).by_slug e.recipe_slug = none := by
      apply Option.not_isSome_iff_eq_none.mp
      rw [hrknown]
      rintro (h | h)
      · exact hnm h
      · exact hnd h
    exact (mergeEntries_main now aby _ _ d.entries _ hseen0 e he).1 hnone
  · intro e he hkr hnm hnd
    have hinone : (mergeIngredients d.ingredients
        ⟨m.ingredients, dictOf m.ingredients (fun x => x.slug), 0, 0, []⟩).by_slug
          e.ingredient_slug = none := by
      apply Option.not_isSome_iff_eq_none.mp
      rw [hiknown]
      rintro (h | h)
      · exact hnm h
      · exact hnd h
    have hrsome := (hrknown e.recipe_slug).mpr hkr
    rcases Option.isSome_iff_exists.mp hrsome with ⟨r, hr⟩
    exact (mergeEntries_main now aby _ _ d.entries _ hseen0 e he).2.1 r hr hinone
  · intro e he hkr hki
    have hrsome := (hrknown e.recipe_slug).mpr hkr
    rcases Option.isSome_iff_exists.mp hrsome with ⟨r, hr⟩
    have hisome := (hiknown e.ingredient_slug).mpr hki
    rcases Option.isSome_iff_exists.mp hisome with ⟨i, hi⟩
    rcases (mergeEntries_main now aby _ _ d.entries _ hseen0 e he).2.2 r i hr hi with
      ⟨row, hrow, h1, h2, h3, h4⟩
    rcases hrdictOk _ _ hr with ⟨hrmem, hrslug⟩
    rcases hidictOk _ _ hi with ⟨himem, hislug⟩
    exact ⟨row, hrow, r, hrmem, i, himem, hrslug, hislug, h1, h2, h3, h4⟩
  · exact mergeEntries_length_zero now aby _ _ d.entries m.entries
      (m.entries.map mergeKeyOfEntry) []

/-- Witness for C4: in the concrete scenario-B diff below, the entry
referring to the unknown ingredient slug `unobtainium` is reported, the
valid entry commits, and the totals add up. -/
theorem merge_skips_unresolved_entries_witness :
    ("Skipping entry - unknown ingredient_slug: unobtainium") ∈
      (merge "t0" "gpt" emptyMaster
        ⟨[⟨"r", "Recipe R"⟩], [⟨"i", "Ingredient I", .missing⟩], [],
         [⟨"r", "unobtainium", .missing, .missing, .missing, .missing, .missing, .missing,
            .missing⟩,
          ⟨"r", "i", .str "2 hin", .missing, .missing, .missing, .missing, .missing,
            .missing⟩]⟩).2.entry_errors :=
  (merge_skips_unresolved_entries "t0" "gpt" emptyMaster
    ⟨[⟨"r", "Recipe R"⟩], [⟨"i", "Ingredient I", .missing⟩], [],
     [⟨"r", "unobtainium", .missing, .missing, .missing, .missing, .missing, .missing,
        .missing⟩,
      ⟨"r", "i", .str "2 hin", .missing, .missing, .missing, .missing, .missing,
        .missing⟩]⟩).2.1
    ⟨"r", "unobtainium", .missing, .missing, .missing, .missing, .missing, .missing, .missing⟩
    (by decide) (by decide) (by decide) (by decide)

/-! ### Removal engine (`scripts/remove_diff.py`) -/

/-- Step 1 of `remove_diff`: an entry is removed when its recipe and
ingredient resolve (by id, against the still-unmodified collections) and
some diff entry matches its slugs and its coalesced
`amount_raw`/`preparation` (`(x.get(k) or "") == (y.get(k) or "")`).
An entry whose recipe or ingredient cannot be found is kept. -/
def removeEntries (master : Master) (diff : Diff) : List Entry :=
  master.entries.filter (fun entry =>
    match master.recipes.find? (fun r => r.recipe_id = entry.recipe_id),
          master.ingredients.find? (fun i => i.ingredient_id = entry.ingredient_id) with
    | some recipe, some ingredient =>
      !(diff.entries.any (fun de => decide
          (recipe.slug = de.recipe_slug ∧
           ingredient.slug = de.ingredient_slug ∧
           orEmpty entry.amount_raw = orEmpty de.amount_raw ∧
           orEmpty entry.preparation = orEmpty de.preparation)))
    | _, _ => true)

/-- Step 2 of `remove_diff`: an alias is removed when its ingredient
resolves and some diff alias matches `(ingredient_slug, variant_label)`
exactly; an alias whose ingredient cannot be found is kept. -/
def removeAliases (master : Master) (diff : Diff) : List Alias :=
  master.aliases.filter (fun al =>
    match master.ingredients.find? (fun i => i.ingredient_id = al.ingredient_id) with
    | some ingredient =>
      !(diff.aliases.any (fun da => decide
          (ingredient.slug = da.ingredient_slug ∧
           al.variant_label = da.variant_label)))
    | none => true)

/-- `remove_diff.remove_diff` (I/O stripped): the four passes in their
fixed order — entries, aliases, then ingredients against the usage set
recomputed from surviving entries and aliases, then recipes against the
usage set recomputed from surviving entries.  The `removed_by` argument
is accepted and unused, as in the script. -/
def remove_diff (master : Master) (diff : Diff) (removed_by : String) : Master :=
  let entries1 := removeEntries master diff
  let aliases1 := removeAliases master diff
  let ing_in_use : List Int := entries1.map (fun e => e.ingredient_id) ++
    aliases1.map (fun a => a.ingredient_id)
  let ingredients1 := master.ingredients.filter (fun ing =>
    !(diff.ingredients.any (fun di => decide
        (ing.slug = di.slug ∧ ing.ingredient_id ∉ ing_in_use))))
  let rec_in_use : List Int := entries1.map (fun e => e.recipe_id)
  let recipes1 := master.recipes.filter (fun r =>
    !(diff.recipes.any (fun dr => decide
        (r.slug = dr.slug ∧ r.recipe_id ∉ rec_in_use))))
  ⟨recipes1, ingredients1, aliases1, entries1⟩

/-- Claim C2: after a removal pass, every surviving entry whose
recipe/ingredient id resolved before the pass still resolves, and every
surviving alias's resolvable ingredient still resolves: ingredient
usage is recomputed from surviving entries and aliases before
ingredient deletion, and recipe usage from surviving entries before
recipe deletion. -/
theorem remove_preserves_referential_integrity (m : Master) (d : Diff) (rb : String) :
    (∀ e ∈ (remove_diff m d rb).entries,
      ((∃ r ∈ m.recipes, r.recipe_id = e.recipe_id) →
        ∃ r ∈ (remove_diff m d rb).recipes, r.recipe_id = e.recipe_id) ∧
      ((∃ i ∈ m.ingredients, i.ingredient_id = e.ingredient_id) →
        ∃ i ∈ (remove_diff m d rb).ingredients, i.ingredient_id = e.ingredient_id)) ∧
    (∀ a ∈ (remove_diff m d rb).aliases,
      (∃ i ∈ m.ingredients, i.ingredient_id = a.ingredient_id) →
        ∃ i ∈ (remove_diff m d rb).ingredients, i.ingredient_id = a.ingredient_id) := by
  constructor
  · intro e he
    constructor
    · rintro ⟨r, hr, hid⟩
      refine ⟨r, ?_, hid⟩
      show r ∈ (removeEntries m d |> fun entries1 =>
        m.recipes.filter (fun x =>
          !(d.recipes.any (fun dr => decide
              (x.slug = dr.slug ∧
                x.recipe_id ∉ entries1.map (fun e => e.recipe_id))))))
      apply List.mem_filter.mpr
      refine ⟨hr, ?_⟩
      rw [Bool.not_eq_true', List.any_eq_false]
      intro dr hdr
      simp only [decide_eq_true_eq, not_and]
      intro hslug habs
      exact habs (List.mem_map.mpr ⟨e, he, hid.symm ▸ rfl⟩)
    · rintro ⟨i, hi, hid⟩
      refine ⟨i, ?_, hid⟩
      show i ∈ ((removeEntries m d, removeAliases m d) |> fun p =>
        m.ingredients.filter (fun x =>
          !(d.ingredients.any (fun di => decide
              (x.slug = di.slug ∧
                x.ingredient_id ∉ p.1.map (fun e => e.ingredient_id) ++
                  p.2.map (fun a => a.ingredient_id))))))
      apply List.mem_filter.mpr
      refine ⟨hi, ?_⟩
      rw [Bool.not_eq_true', List.any_eq_false]
      intro di hdi
      simp only [decide_eq_true_eq, not_and]
      intro hslug habs
      refine habs (List.mem_append.mpr (Or.inl ?_))
      exact List.mem_map.mpr ⟨e, he, hid.symm ▸ rfl⟩
  · rintro a ha ⟨i, hi, hid⟩
    refine ⟨i, ?_, hid⟩
    show i ∈ ((removeEntries m d, removeAliases m d) |> fun p =>
      m.ingredients.filter (fun x =>
        !(d.ingredients.any (fun di => decide
            (x.slug = di.slug ∧
              x.ingredient_id ∉ p.1.map (fun e => e.ingredient_id) ++
                p.2.map (fun a => a.ingredient_id))))))
    apply List.mem_filter.mpr
    refine ⟨hi, ?_⟩
    rw [Bool.not_eq_true', List.any_eq_false]
    intro di hdi
    simp only [decide_eq_true_eq, not_and]
    intro hslug habs
    refine habs (List.mem_append.mpr (Or.inr ?_))
    exact List.mem_map.mpr ⟨a, ha, hid.symm ▸ rfl⟩

/-- Witness for C2: a one-recipe, one-ingredient, one-entry corpus with
an empty removal diff; the surviving entry still resolves its recipe. -/
theorem remove_preserves_referential_integrity_witness :
    ∃ r ∈ (remove_diff
      ⟨[⟨1, "r", "R"⟩], [⟨1, "i", "I", .missing⟩], [],
       [⟨1, 1, 1, .null, .null, .null, .null, .null, .null, .null, .null, .null⟩]⟩
      ⟨[], [], [], []⟩ "manual").recipes,
      r.recipe_id =
        (⟨1, 1, 1, .null, .null, .null, .null, .null, .null, .null, .null,
          .null⟩ : Entry).recipe_id :=
  ((remove_preserves_referential_integrity
      ⟨[⟨1, "r", "R"⟩], [⟨1, "i", "I", .missing⟩], [],
       [⟨1, 1, 1, .null, .null, .null, .null, .null, .null, .null, .null, .null⟩]⟩
      ⟨[], [], [], []⟩ "manual").1
    ⟨1, 1, 1, .null, .null, .null, .null, .null, .null, .null, .null, .null⟩
    (by decide)).1 ⟨⟨1, "r", "R"⟩, by decide, rfl⟩

/-- Claim C3: an ingredient named in the removal diff that is still
referenced by a surviving entry or surviving alias survives the pass as
the identical row (and likewise a recipe still referenced by a surviving
entry); the engine treats the request as a silent no-op — the pass has
no error channel at all. -/
theorem remove_in_use_is_noop (m : Master) (d : Diff) (rb : String) :
    (∀ i ∈ m.ingredients,
      (∃ di ∈ d.ingredients, di.slug = i.slug) →
      ((∃ e ∈ (remove_diff m d rb).entries, e.ingredient_id = i.ingredient_id) ∨
        (∃ a ∈ (remove_diff m d rb).aliases, a.ingredient_id = i.ingredient_id)) →
      i ∈ (remove_diff m d rb).ingredients) ∧
    (∀ r ∈ m.recipes,
      (∃ dr ∈ d.recipes, dr.slug = r.slug) →
      (∃ e ∈ (remove_diff m d rb).entries, e.recipe_id = r.recipe_id) →
      r ∈ (remove_diff m d rb).recipes) := by
  constructor
  · rintro i hi hnamed huse
    show i ∈ ((removeEntries m d, removeAliases m d) |> fun p =>
      m.ingredients.filter (fun x =>
        !(d.ingredients.any (fun di => decide
            (x.slug = di.slug ∧
              x.ingredient_id ∉ p.1.map (fun e => e.ingredient_id) ++
                p.2.map (fun a => a.ingredient_id))))))
    apply List.mem_filter.mpr
    refine ⟨hi, ?_⟩
    rw [Bool.not_eq_true', List.any_eq_false]
    intro di hdi
    simp only [decide_eq_true_eq, not_and]
    intro hslug habs
    apply habs
    apply List.mem_append.mpr
    rcases huse with ⟨e, he, hid⟩ | ⟨a, ha, hid⟩
    · exact Or.inl (List.mem_map.mpr ⟨e, he, hid⟩)
    · exact Or.inr (List.mem_map.mpr ⟨a, ha, hid⟩)
  · rintro r hr hnamed ⟨e, he, hid⟩
    show r ∈ (removeEntries m d |> fun entries1 =>
      m.recipes.filter (fun x =>
        !(d.recipes.any (fun dr => decide
            (x.slug = dr.slug ∧
              x.recipe_id ∉ entries1.map (fun e => e.recipe_id))))))
    apply List.mem_filter.mpr
    refine ⟨hr, ?_⟩
    rw [Bool.not_eq_true', List.any_eq_false]
    intro dr hdr
    simp only [decide_eq_true_eq, not_and]
    intro hslug habs
    exact habs (List.mem_map.mpr ⟨e, he, hid⟩)

/-- Witness for C3: a removal diff names ingredient `i`, which is still
carried by a surviving alias; the identical ingredient row survives. -/
theorem remove_in_use_is_noop_witness :
    (⟨1, "i", "I", .missing⟩ : Ingredient) ∈ (remove_diff
      ⟨[], [⟨1, "i", "I", .missing⟩], [⟨1, 1, "smyrna", .str "grc", .missing⟩], []⟩
      ⟨[], [⟨"i", "I", .missing⟩], [], []⟩ "manual").ingredients :=
  (remove_in_use_is_noop
      ⟨[], [⟨1, "i", "I", .missing⟩], [⟨1, 1, "smyrna", .str "grc", .missing⟩], []⟩
      ⟨[], [⟨"i", "I", .missing⟩], [], []⟩ "manual").1
    ⟨1, "i", "I", .missing⟩ (by decide) ⟨⟨"i", "I", .missing⟩, by decide, rfl⟩
    (Or.inr ⟨⟨1, 1, "smyrna", .str "grc", .missing⟩, by decide, rfl⟩)

/-- Modelled from claim C9's reading of the code: both sides of the
entry-removal comparison coalesce a `null`, a missing key, and the
empty string to `""` before comparing. -/
def coalesce : StrField → String
  | .null => ""
  | .missing => ""
  | .str s => s

/-- Claim C9: the entry-removal pass deletes exactly the resolvable
entries matched by some diff tuple under strict slug comparison and
coalesced comparison of `amount_raw` and `preparation`, where `null`,
a missing key, and `""` are identified with one another. -/
theorem remove_entries_coalesced_matching (m : Master) (d : Diff) (rb : String) :
    ((remove_diff m d rb).entries = m.entries.filter (fun entry =>
      match m.recipes.find? (fun r => r.recipe_id = entry.recipe_id),
            m.ingredients.find? (fun i => i.ingredient_id = entry.ingredient_id) with
      | some recipe, some ingredient =>
        !(d.entries.any (fun de => decide
            (recipe.slug = de.recipe_slug ∧
             ingredient.slug = de.ingredient_slug ∧
             coalesce entry.amount_raw = coalesce de.amount_raw ∧
             coalesce entry.preparation = coalesce de.preparation)))
      | _, _ => true)) ∧
    (coalesce .missing = "" ∧ coalesce .null = "" ∧ coalesce (.str "") = "") := by
  have hco : ∀ x, coalesce x = orEmpty x := by
    intro x
    cases x <;> rfl
  refine ⟨?_, rfl, rfl, rfl⟩
  show removeEntries m d = _
  unfold removeEntries
  apply List.filter_congr
  intro entry _
  rcases hfr : m.recipes.find? (fun r => r.recipe_id = entry.recipe_id) with _ | recipe <;>
    rcases hfi : m.ingredients.find? (fun i => i.ingredient_id = entry.ingredient_id) with
      _ | ingredient <;>
    simp [hco]

/-! ### Validator (`scripts/validate_diff.py`) -/

/-- A JSON scalar value as stored in a diff item. -/
inductive Val where
  | vstr : String → Val
  | vint : Int → Val
  | vnull : Val
  | vbool : Bool → Val
deriving DecidableEq

/-- A diff item as a raw JSON object (field name to value). -/
def RawItem : Type := List (String × Val)

instance : DecidableEq RawItem := by
  unfold RawItem
  infer_instance

/-- Python `item.get(k)` on a parsed JSON object (`json.load` keeps the
last occurrence of a duplicated key). -/
def rawGet (item : RawItem) (k : String) : Option Val :=
  ((item.filter (fun p => p.1 = k)).getLast?).map (fun p => p.2)

/-- Python `item[k]`: a missing key raises `KeyError`. -/
def pyIndex (item : RawItem) (k : String) : Except String Val :=
  match rawGet item k with
  | some v => .ok v
  | none => .error ("KeyError: " ++ k)

/-- Python `len(v)`: only defined on strings here; anything else raises
`TypeError`.  Python counts code points, as `String.length` does. -/
def pyLen : Val → Except String Nat
  | .vstr s => .ok s.length
  | _ => .error "TypeError: object has no len()"

/-- Python iteration over a value as a string (`for c in label`). -/
def pyStrVal : Val → Except String String
  | .vstr s => .ok s
  | _ => .error "TypeError: value is not iterable"

/-- Python truthiness of `item.get(k)` (`not ingredient.get("language")`):
a missing key, `null`, `""`, `0` and `False` are falsy. -/
def pyTruthy : Option Val → Bool
  | none => false
  | some .vnull => false
  | some (.vstr s) => !(s = "")
  | some (.vint n) => !(n = 0)
  | some (.vbool b) => b

/-- A parsed diff file for validation: the validator's input with its
four arrays (the top-level checks of `validate_json_schema` against a
file missing one of the arrays, or holding a non-array, are modelled as
vacuous since the embedded file always carries the four arrays). -/
structure RawDiff where
  recipes : List RawItem
  ingredients : List RawItem
  aliases : List RawItem
  entries : List RawItem
deriving DecidableEq

/-- The diff schema (`data/schema_diff.json`), reduced to what
`validate_json_schema` reads: the per-section required item fields
(`schema["properties"][section]["items"]["required"]`). -/
structure DiffSchema where
  required : String → List String

/-- The fatal findings of `validate_diff` (`errors` list), by category:
structural (missing required field), intra-diff uniqueness, and
referential closure.  The payloads mirror what the script interpolates
into each message. -/
inductive VError where
  | missingField : String → Nat → String → VError
  | duplicateRecipeSlugs : List Val → VError
  | duplicateIngredientSlugs : List Val → VError
  | badAliasRefs : List Val → VError
  | badEntryRecipeRefs : List Val → VError
  | badEntryIngredientRefs : List Val → VError
deriving DecidableEq

/-- The non-fatal warnings of `validate_diff` (`warnings` list). -/
inductive VWarn where
  | emptyAmounts : Nat → VWarn
  | shortLabels : List (String × Val) → VWarn
deriving DecidableEq

/-- The advisory findings of `validate_diff` (`suggestions` list). -/
inductive VSugg where
  | languageTags : List Val → VSugg
deriving DecidableEq

/-- The outcome `validate_diff` reports: the three accumulated lists and
the returned boolean. -/
structure VResult where
  errors : List VError
  warnings : List VWarn
  suggestions : List VSugg
  ok : Bool
deriving DecidableEq

/-- `validate_json_schema` for one section: for each item (with its
index), an error for each schema-required field the item lacks. -/
def sectionErrors (schema : DiffSchema) (sectionName : String)
    (items : List RawItem) : List VError :=
  items.enum.flatMap (fun p =>
    ((schema.required sectionName).filter
        (fun f => !(rawGet p.2 f).isSome)).map
      (fun f => VError.missingField sectionName p.1 f))

/-- `validate_json_schema` over the four sections, in source order. -/
def schemaErrors (schema : DiffSchema) (d : RawDiff) : List VError :=
  sectionErrors schema "recipes" d.recipes ++
  sectionErrors schema "ingredients" d.ingredients ++
  sectionErrors schema "aliases" d.aliases ++
  sectionErrors schema "entries" d.entries

/-- The distinct values of a list in first-occurrence order (the keys of
`collections.Counter`, which iterates in insertion order). -/
def firstOccs : List Val → List Val
  | [] => []
  | x :: xs => x :: firstOccs (xs.filter (fun y => !(y = x)))
termination_by xs => xs.length
decreasing_by
  simp only [List.length_cons]
  exact Nat.lt_succ_of_le (List.length_filter_le _ _)

/-- `[slug for slug, count in Counter(slugs).items() if count > 1]`. -/
def dupes (xs : List Val) : List Val :=
  (firstOccs xs).filter (fun v => xs.count v > 1)

/-- `e.get("amount_raw") in [None, "", "—", "?"]`. -/
def amountEmpty (o : Option Val) : Bool :=
  match o with
  | none => true
  | some .vnull => true
  | some (.vstr s) => s = "" || s = "—" || s = "?"
  | _ => false

/-- The very-short-label quality loop over one section: items whose
`label` has length below the threshold contribute their section name and
slug (the slug is read only for flagged items, as in the f-string). -/
def shortOnes (sectionName : String) (threshold : Nat) :
    List RawItem → Except String (List (String × Val))
  | [] => .ok []
  | it :: rest => do
    let lab ← pyIndex it "label"
    let n ← pyLen lab
    let head ← if n < threshold then do
        let slug ← pyIndex it "slug"
        pure [(sectionName, slug)]
      else
        pure ([] : List (String × Val))
    let tail ← shortOnes sectionName threshold rest
    pure (head ++ tail)

/-- The non-ASCII-label-without-language loop over the ingredients. -/
def nonAsciiNoLang : List RawItem → Except String (List Val)
  | [] => .ok []
  | it :: rest => do
    let lab ← pyIndex it "label"
    let s ← pyStrVal lab
    let head ← if s.data.any (fun c => c.toNat > 127) && !(pyTruthy (rawGet it "language"))
      then do
        let slug ← pyIndex it "slug"
        pure [slug]
      else
        pure ([] : List Val)
    let tail ← nonAsciiNoLang rest
    pure (head ++ tail)

/-- `validate_diff.validate_diff` on a parsed diff (I/O stripped):
schema errors, intra-diff duplicate slugs, referential closure within
the diff, then the quality heuristics; `ok` is `False` exactly when the
`errors` list is nonempty.  A `KeyError`/`TypeError` raised by an
unguarded item access propagates as `Except.error`, as in the script
(where it aborts `validate_diff` and is caught only at top level). -/
def validate_diff (schema : DiffSchema) (d : RawDiff) : Except String VResult := do
  let errors0 := schemaErrors schema d
  let recipe_slugs ← d.recipes.mapM (fun r => pyIndex r "slug")
  let recipe_dupes := dupes recipe_slugs
  let errors1 := errors0 ++
    (if recipe_dupes = [] then [] else [VError.duplicateRecipeSlugs recipe_dupes])
  let ingredient_slugs ← d.ingredients.mapM (fun i => pyIndex i "slug")
  let ingredient_dupes := dupes ingredient_slugs
  let errors2 := errors1 ++
    (if ingredient_dupes = [] then []
     else [VError.duplicateIngredientSlugs ingredient_dupes])
  let alias_refs ← d.aliases.mapM (fun a => pyIndex a "ingredient_slug")
  let bad_alias_refs := alias_refs.filter (fun v => v ∉ ingredient_slugs)
  let errors3 := errors2 ++
    (if bad_alias_refs = [] then [] else [VError.badAliasRefs bad_alias_refs])
  let entry_refs ← d.entries.mapM (fun e => do
    let r ← pyIndex e "recipe_slug"
    let i ← pyIndex e "ingredient_slug"
    pure (r, i))
  let bad_entry_recipe_refs := (entry_refs.map (fun p => p.1)).filter
    (fun v => v ∉ recipe_slugs)
  let bad_entry_ingredient_refs := (entry_refs.map (fun p => p.2)).filter
    (fun v => v ∉ ingredient_slugs)
  let errors4 := errors3 ++
    (if bad_entry_recipe_refs = [] then []
     else [VError.badEntryRecipeRefs bad_entry_recipe_refs])
  let errors5 := errors4 ++
    (if bad_entry_ingredient_refs = [] then []
     else [VError.badEntryIngredientRefs bad_entry_ingredient_refs])
  let empty_amounts := (d.entries.filter (fun e => amountEmpty (rawGet e "amount_raw"))).length
  let warnings0 : List VWarn :=
    if empty_amounts > 0 then [VWarn.emptyAmounts empty_amounts] else []
  let shortsR ← shortOnes "recipe" 3 d.recipes
  let shortsI ← shortOnes "ingredient" 2 d.ingredients
  let short_labels := shortsR ++ shortsI
  let warnings1 := warnings0 ++
    (if short_labels = [] then [] else [VWarn.shortLabels short_labels])
  let no_lang ← nonAsciiNoLang d.ingredients
  let suggestions : List VSugg :=
    if no_lang = [] then [] else [VSugg.languageTags no_lang]
  pure ⟨errors5, warnings1, suggestions, errors5.isEmpty⟩

/-- The recipe slugs defined in the diff (`recipe_slug_set`). -/
def recipeSlugVals (d : RawDiff) : List Val :=
  d.recipes.filterMap (fun r => rawGet r "slug")

/-- The ingredient slugs defined in the diff (`ingredient_slug_set`). -/
def ingredientSlugVals (d : RawDiff) : List Val :=
  d.ingredients.filterMap (fun i => rawGet i "slug")

/-- Does an optional field hold a string value? -/
def isStrField : Option Val → Bool
  | some (.vstr _) => true
  | _ => false

/-- The fields `validate_diff` reads without a guard: each
recipe/ingredient must carry `slug` and a string `label`, each alias an
`ingredient_slug`, each entry a `recipe_slug` and an `ingredient_slug`;
otherwise the script raises instead of returning. -/
def AccessedFieldsOk (d : RawDiff) : Prop :=
  (∀ r ∈ d.recipes, (rawGet r "slug").isSome = true ∧
    isStrField (rawGet r "label") = true) ∧
  (∀ i ∈ d.ingredients, (rawGet i "slug").isSome = true ∧
    isStrField (rawGet i "label") = true) ∧
  (∀ a ∈ d.aliases, (rawGet a "ingredient_slug").isSome = true) ∧
  (∀ e ∈ d.entries, (rawGet e "recipe_slug").isSome = true ∧
    (rawGet e "ingredient_slug").isSome = true)

theorem isStrField_iff (o : Option Val) :
    isStrField o = true ↔ ∃ s, o = some (.vstr s) := by
  cases o with
  | none => simp [isStrField]
  | some v => cases v <;> simp [isStrField]

/-- Modelled from the spec: every item of each of the four arrays
carries its schema-declared required fields (the structural check). -/
def NoMissingRequired (schema : DiffSchema) (d : RawDiff) : Prop :=
  (∀ it ∈ d.recipes, ∀ f ∈ schema.required "recipes", (rawGet it f).isSome = true) ∧
  (∀ it ∈ d.ingredients, ∀ f ∈ schema.required "ingredients", (rawGet it f).isSome = true) ∧
  (∀ it ∈ d.aliases, ∀ f ∈ schema.required "aliases", (rawGet it f).isSome = true) ∧
  (∀ it ∈ d.entries, ∀ f ∈ schema.required "entries", (rawGet it f).isSome = true)

/-- Modelled from the spec: every alias/entry slug reference resolves to
a slug defined elsewhere in the same diff (referential closure). -/
def RefsClosed (d : RawDiff) : Prop :=
  (∀ a ∈ d.aliases, ∀ v, rawGet a "ingredient_slug" = some v →
    v ∈ ingredientSlugVals d) ∧
  (∀ e ∈ d.entries, ∀ v, rawGet e "recipe_slug" = some v →
    v ∈ recipeSlugVals d) ∧
  (∀ e ∈ d.entries, ∀ v, rawGet e "ingredient_slug" = some v →
    v ∈ ingredientSlugVals d)

/-- The `(recipe_slug, ingredient_slug)` pairs of the entries that carry
both fields. -/
def entryPairs (items : List RawItem) : List (Val × Val) :=
  items.flatMap (fun e =>
    match rawGet e "recipe_slug", rawGet e "ingredient_slug" with
    | some r, some i => [(r, i)]
    | _, _ => [])

/-- Total counterpart of `shortOnes` when no access can raise. -/
def shortOnesTotal (sectionName : String) (threshold : Nat)
    (items : List RawItem) : List (String × Val) :=
  items.flatMap (fun it =>
    match rawGet it "label", rawGet it "slug" with
    | some (.vstr s), some slug =>
      if s.length < threshold then [(sectionName, slug)] else []
    | _, _ => [])

/-- Total counterpart of `nonAsciiNoLang` when no access can raise. -/
def nonAsciiNoLangTotal (items : List RawItem) : List Val :=
  items.flatMap (fun it =>
    match rawGet it "label", rawGet it "slug" with
    | some (.vstr s), some slug =>
      if s.data.any (fun c => c.toNat > 127) && !(pyTruthy (rawGet it "language"))
      then [slug] else []
    | _, _ => [])

/-- The value `validate_diff` computes when no item access raises. -/
def validateTotal (schema : DiffSchema) (d : RawDiff) : VResult :=
  let errors0 := schemaErrors schema d
  let recipe_slugs := recipeSlugVals d
  let recipe_dupes := dupes recipe_slugs
  let errors1 := errors0 ++
    (if recipe_dupes = [] then [] else [VError.duplicateRecipeSlugs recipe_dupes])
  let ingredient_slugs := ingredientSlugVals d
  let ingredient_dupes := dupes ingredient_slugs
  let errors2 := errors1 ++
    (if ingredient_dupes = [] then []
     else [VError.duplicateIngredientSlugs ingredient_dupes])
  let alias_refs := d.aliases.filterMap (fun a => rawGet a "ingredient_slug")
  let bad_alias_refs := alias_refs.filter (fun v => v ∉ ingredient_slugs)
  let errors3 := errors2 ++
    (if bad_alias_refs = [] then [] else [VError.badAliasRefs bad_alias_refs])
  let entry_refs := entryPairs d.entries
  let bad_entry_recipe_refs := (entry_refs.map (fun p => p.1)).filter
    (fun v => v ∉ recipe_slugs)
  let bad_entry_ingredient_refs := (entry_refs.map (fun p => p.2)).filter
    (fun v => v ∉ ingredient_slugs)
  let errors4 := errors3 ++
    (if bad_entry_recipe_refs = [] then []
     else [VError.badEntryRecipeRefs bad_entry_recipe_refs])
  let errors5 := errors4 ++
    (if bad_entry_ingredient_refs = [] then []
     else [VError.badEntryIngredientRefs bad_entry_ingredient_refs])
  let empty_amounts := (d.entries.filter (fun e => amountEmpty (rawGet e "amount_raw"))).length
  let warnings0 : List VWarn :=
    if empty_amounts > 0 then [VWarn.emptyAmounts empty_amounts] else []
  let short_labels := shortOnesTotal "recipe" 3 d.recipes ++
    shortOnesTotal "ingredient" 2 d.ingredients
  let warnings1 := warnings0 ++
    (if short_labels = [] then [] else [VWarn.shortLabels short_labels])
  let no_lang := nonAsciiNoLangTotal d.ingredients
  let suggestions : List VSugg :=
    if no_lang = [] then [] else [VSugg.languageTags no_lang]
  ⟨errors5, warnings1, suggestions, errors5.isEmpty⟩

@[simp] theorem except_ok_bind {ε α β : Type} (a : α) (f : α → Except ε β) :
    ((Except.ok a : Except ε α) >>= f) = f a := rfl

@[simp] theorem except_error_bind {ε α β : Type} (e : ε) (f : α → Except ε β) :
    ((Except.error e : Except ε α) >>= f) = Except.error e := rfl

@[simp] theorem except_pure_eq_ok {ε α : Type} (a : α) :
    (pure a : Except ε α) = Except.ok a := rfl

theorem mapM_pyIndex_ok {items : List RawItem} {k : String}
    (h : ∀ it ∈ items, (rawGet it k).isSome = true) :
    items.mapM (fun it => pyIndex it k) =
      Except.ok (items.filterMap (fun it => rawGet it k)) := by
  induction items with
  | nil => rfl
  | cons it rest ih =>
    have hsome := h it (List.mem_cons_self it rest)
    rcases Option.isSome_iff_exists.mp hsome with ⟨v, hv⟩
    rw [List.mapM_cons, ih (fun x hx => h x (List.mem_cons_of_mem it hx))]
    simp [pyIndex, hv, List.filterMap_cons]

theorem mapM_entry_pairs {items : List RawItem}
    (h : ∀ e ∈ items, (rawGet e "recipe_slug").isSome = true ∧
      (rawGet e "ingredient_slug").isSome = true) :
    items.mapM (fun e => do
        let r ← pyIndex e "recipe_slug"
        let i ← pyIndex e "ingredient_slug"
        pure (r, i)) =
      Except.ok (entryPairs items) := by
  induction items with
  | nil => rfl
  | cons it rest ih =>
    rcases h it (List.mem_cons_self it rest) with ⟨h1, h2⟩
    rcases Option.isSome_iff_exists.mp h1 with ⟨rv, hrv⟩
    rcases Option.isSome_iff_exists.mp h2 with ⟨iv, hiv⟩
    rw [List.mapM_cons, ih (fun x hx => h x (List.mem_cons_of_mem it hx))]
    simp [pyIndex, hrv, hiv, entryPairs]

theorem shortOnes_ok (sectionName : String) (threshold : Nat) :
    ∀ (items : List RawItem),
      (∀ it ∈ items, (rawGet it "slug").isSome = true ∧
        ∃ s, rawGet it "label" = some (.vstr s)) →
      shortOnes sectionName threshold items =
        Except.ok (shortOnesTotal sectionName threshold items) := by
  intro items
  induction items with
  | nil => intro h; rfl
  | cons it rest ih =>
    intro h
    rcases h it (List.mem_cons_self it rest) with ⟨h1, ⟨s, hs⟩⟩
    rcases Option.isSome_iff_exists.mp h1 with ⟨slug, hslug⟩
    have ihe := ih (fun x hx => h x (List.mem_cons_of_mem it hx))
    rw [shortOnes, ihe]
    unfold shortOnesTotal
    by_cases hlen : s.length < threshold
    · simp [pyIndex, hs, hslug, pyLen, hlen]
    · simp [pyIndex, hs, hslug, pyLen, hlen]

theorem nonAsciiNoLang_ok :
    ∀ (items : List RawItem),
      (∀ it ∈ items, (rawGet it "slug").isSome = true ∧
        ∃ s, rawGet it "label" = some (.vstr s)) →
      nonAsciiNoLang items = Except.ok (nonAsciiNoLangTotal items) := by
  intro items
  induction items with
  | nil => intro h; rfl
  | cons it rest ih =>
    intro h
    rcases h it (List.mem_cons_self it rest) with ⟨h1, ⟨s, hs⟩⟩
    rcases Option.isSome_iff_exists.mp h1 with ⟨slug, hslug⟩
    have ihe := ih (fun x hx => h x (List.mem_cons_of_mem it hx))
    rw [nonAsciiNoLang, ihe]
    unfold nonAsciiNoLangTotal
    by_cases hcond : (∃ x ∈ s.data, 127 < x.toNat) ∧ pyTruthy (rawGet it "language") = false
    · simp [pyIndex, hs, hslug, pyStrVal, hcond]
    · simp [pyIndex, hs, hslug, pyStrVal, hcond]

theorem validate_diff_eq_total (schema : DiffSchema) (d : RawDiff)
    (hacc : AccessedFieldsOk d) :
    validate_diff schema d = Except.ok (validateTotal schema d) := by
  rcases hacc with ⟨hr, hi, ha, he⟩
  have hrs : ∀ it ∈ d.recipes, (rawGet it "slug").isSome = true ∧
      ∃ s, rawGet it "label" = some (.vstr s) :=
    fun it hx => ⟨(hr it hx).1, (isStrField_iff _).mp (hr it hx).2⟩
  have his : ∀ it ∈ d.ingredients, (rawGet it "slug").isSome = true ∧
      ∃ s, rawGet it "label" = some (.vstr s) :=
    fun it hx => ⟨(hi it hx).1, (isStrField_iff _).mp (hi it hx).2⟩
  unfold validate_diff validateTotal
  rw [mapM_pyIndex_ok (fun it hx => (hr it hx).1),
    mapM_pyIndex_ok (fun it hx => (hi it hx).1),
    mapM_pyIndex_ok ha,
    mapM_entry_pairs he,
    shortOnes_ok _ _ _ hrs,
    shortOnes_ok _ _ _ his,
    nonAsciiNoLang_ok _ his]
  rfl

theorem mem_firstOccs : ∀ (xs : List Val) (v : Val), v ∈ firstOccs xs ↔ v ∈ xs := by
  intro xs
  induction xs using firstOccs.induct with
  | case1 => intro v; simp [firstOccs]
  | case2 x xs ih =>
    intro v
    rw [firstOccs]
    simp only [List.mem_cons, ih, List.mem_filter]
    constructor
    · rintro (rfl | ⟨hv, _⟩)
      · exact Or.inl rfl
      · exact Or.inr hv
    · rintro (rfl | hv)
      · exact Or.inl rfl
      · by_cases hx : v = x
        · exact Or.inl hx
        · exact Or.inr ⟨hv, by simpa using hx⟩

theorem dupes_eq_nil_iff (xs : List Val) : dupes xs = [] ↔ xs.Nodup := by
  unfold dupes
  rw [List.filter_eq_nil_iff, List.nodup_iff_count_le_one]
  constructor
  · intro h v
    by_cases hv : v ∈ xs
    · have := h v ((mem_firstOccs xs v).mpr hv)
      simp only [decide_eq_true_eq] at this
      omega
    · rw [List.count_eq_zero_of_not_mem hv]
      omega
  · intro h v _
    have := h v
    simp only [decide_eq_true_eq]
    omega

theorem sectionErrors_aux (schema : DiffSchema) (sectionName : String) :
    ∀ (items : List RawItem) (n : Nat),
      ((items.enumFrom n).flatMap (fun p =>
          ((schema.required sectionName).filter
              (fun f => !(rawGet p.2 f).isSome)).map
            (fun f => VError.missingField sectionName p.1 f)) = []) ↔
        ∀ it ∈ items, ∀ f ∈ schema.required sectionName, (rawGet it f).isSome = true := by
  intro items
  induction items with
  | nil => intro n; simp
  | cons it rest ih =>
    intro n
    simp only [List.enumFrom_cons, List.flatMap_cons, List.append_eq_nil, ih (n + 1),
      List.map_eq_nil_iff, List.filter_eq_nil_iff, Bool.not_eq_true', Bool.not_eq_false,
      List.mem_cons]
    constructor
    · rintro ⟨h1, h2⟩ x hx f hf
      rcases hx with rfl | hx
      · exact h1 f hf
      · exact h2 x hx f hf
    · intro h
      exact ⟨fun f hf => h it (Or.inl rfl) f hf, fun x hx f hf => h x (Or.inr hx) f hf⟩

theorem sectionErrors_eq_nil_iff (schema : DiffSchema) (sectionName : String)
    (items : List RawItem) :
    sectionErrors schema sectionName items = [] ↔
      ∀ it ∈ items, ∀ f ∈ schema.required sectionName, (rawGet it f).isSome = true := by
  unfold sectionErrors
  exact sectionErrors_aux schema sectionName items 0

theorem schemaErrors_eq_nil_iff (schema : DiffSchema) (d : RawDiff) :
    schemaErrors schema d = [] ↔ NoMissingRequired schema d := by
  unfold schemaErrors NoMissingRequired
  simp only [List.append_eq_nil, sectionErrors_eq_nil_iff]
  tauto

theorem if_singleton_eq_nil {β γ : Type} [DecidableEq β] (L : List β) (x : γ) :
    ((if L = [] then ([] : List γ) else [x]) = []) ↔ L = [] := by
  split
  · simp [*]
  · simp [*]

theorem aliasRefs_ok_iff (d : RawDiff) :
    ((d.aliases.filterMap (fun a => rawGet a "ingredient_slug")).filter
      (fun v => v ∉ ingredientSlugVals d) = []) ↔
      (∀ a ∈ d.aliases, ∀ v, rawGet a "ingredient_slug" = some v →
        v ∈ ingredientSlugVals d) := by
  rw [List.filter_eq_nil_iff]
  constructor
  · intro h a ha v hv
    have := h v (List.mem_filterMap.mpr ⟨a, ha, hv⟩)
    simpa using this
  · intro h v hvmem
    rcases List.mem_filterMap.mp hvmem with ⟨a, ha, hv⟩
    simpa using h a ha v hv

theorem mem_entryPairs {items : List RawItem} {p : Val × Val} :
    p ∈ entryPairs items ↔ ∃ e ∈ items,
      rawGet e "recipe_slug" = some p.1 ∧ rawGet e "ingredient_slug" = some p.2 := by
  unfold entryPairs
  rw [List.mem_flatMap]
  constructor
  · rintro ⟨e, he, hp⟩
    rcases h1 : rawGet e "recipe_slug" with _ | r
    · rw [h1] at hp
      simp at hp
    · rcases h2 : rawGet e "ingredient_slug" with _ | i
      · rw [h1, h2] at hp
        simp at hp
      · rw [h1, h2] at hp
        simp only [List.mem_singleton] at hp
        subst hp
        exact ⟨e, he, h1, h2⟩
  · rintro ⟨e, he, h1, h2⟩
    refine ⟨e, he, ?_⟩
    rw [h1, h2]
    simp

theorem entryRecipeRefs_ok_iff (d : RawDiff)
    (he : ∀ e ∈ d.entries, (rawGet e "recipe_slug").isSome = true ∧
      (rawGet e "ingredient_slug").isSome = true) :
    (((entryPairs d.entries).map (fun p => p.1)).filter
      (fun v => v ∉ recipeSlugVals d) = []) ↔
      (∀ e ∈ d.entries, ∀ v, rawGet e "recipe_slug" = some v →
        v ∈ recipeSlugVals d) := by
  rw [List.filter_eq_nil_iff]
  constructor
  · intro h e hev v hv
    rcases Option.isSome_iff_exists.mp (he e hev).2 with ⟨iv, hiv⟩
    have hmem : v ∈ (entryPairs d.entries).map (fun p => p.1) :=
      List.mem_map.mpr ⟨(v, iv), mem_entryPairs.mpr ⟨e, hev, hv, hiv⟩, rfl⟩
    simpa using h v hmem
  · intro h v hvmem
    rcases List.mem_map.mp hvmem with ⟨p, hpmem, hp⟩
    rcases mem_entryPairs.mp hpmem with ⟨e, hev, h1, h2⟩
    subst hp
    simpa using h e hev p.1 h1

theorem entryIngredientRefs_ok_iff (d : RawDiff)
    (he : ∀ e ∈ d.entries, (rawGet e "recipe_slug").isSome = true ∧
      (rawGet e "ingredient_slug").isSome = true) :
    (((entryPairs d.entries).map (fun p => p.2)).filter
      (fun v => v ∉ ingredientSlugVals d) = []) ↔
      (∀ e ∈ d.entries, ∀ v, rawGet e "ingredient_slug" = some v →
        v ∈ ingredientSlugVals d) := by
  rw [List.filter_eq_nil_iff]
  constructor
  · intro h e hev v hv
    rcases Option.isSome_iff_exists.mp (he e hev).1 with ⟨rv, hrv⟩
    have hmem : v ∈ (entryPairs d.entries).map (fun p => p.2) :=
      List.mem_map.mpr ⟨(rv, v), mem_entryPairs.mpr ⟨e, hev, hrv, hv⟩, rfl⟩
    simpa using h v hmem
  · intro h v hvmem
    rcases List.mem_map.mp hvmem with ⟨p, hpmem, hp⟩
    rcases mem_entryPairs.mp hpmem with ⟨e, hev, h1, h2⟩
    subst hp
    simpa using h e hev p.2 h2

theorem validateTotal_ok_eq (schema : DiffSchema) (d : RawDiff) :
    (validateTotal schema d).ok = (validateTotal schema d).errors.isEmpty := rfl

theorem validateTotal_errors_eq (schema : DiffSchema) (d : RawDiff) :
    (validateTotal schema d).errors =
      schemaErrors schema d ++
      (if dupes (recipeSlugVals d) = [] then []
       else [VError.duplicateRecipeSlugs (dupes (recipeSlugVals d))]) ++
      (if dupes (ingredientSlugVals d) = [] then []
       else [VError.duplicateIngredientSlugs (dupes (ingredientSlugVals d))]) ++
      (if (d.aliases.filterMap (fun a => rawGet a "ingredient_slug")).filter
            (fun v => v ∉ ingredientSlugVals d) = [] then []
       else [VError.badAliasRefs ((d.aliases.filterMap
          (fun a => rawGet a "ingredient_slug")).filter
            (fun v => v ∉ ingredientSlugVals d))]) ++
      (if ((entryPairs d.entries).map (fun p => p.1)).filter
            (fun v => v ∉ recipeSlugVals d) = [] then []
       else [VError.badEntryRecipeRefs (((entryPairs d.entries).map
          (fun p => p.1)).filter (fun v => v ∉ recipeSlugVals d))]) ++
      (if ((entryPairs d.entries).map (fun p => p.2)).filter
            (fun v => v ∉ ingredientSlugVals d) = [] then []
       else [VError.badEntryIngredientRefs (((entryPairs d.entries).map
          (fun p => p.2)).filter (fun v => v ∉ ingredientSlugVals d))]) := rfl

/-- Claim C5 (amended): on any well-formed diff whose items carry the
fields the validator reads unguarded (recipe/ingredient `slug` and
string `label`, alias `ingredient_slug`, entry `recipe_slug` and
`ingredient_slug`), `validate_diff` returns, and returns `ok = false`
exactly when a structural error (schema-required field missing), an
intra-diff duplicate recipe/ingredient slug, or an unresolved alias or
entry slug reference is found; data-quality findings are recorded only
in the (typed) warnings/suggestions lists and never affect `ok`, so a
diff with only such findings validates with `ok = true`.  (Without that
field hypothesis the claim fails: the script raises `KeyError` instead
of returning, see the counterexample.) -/
theorem validate_ok_characterization (schema : DiffSchema) (d : RawDiff)
    (hacc : AccessedFieldsOk d) :
    ∃ r, validate_diff schema d = Except.ok r ∧
      (r.ok = true ↔ r.errors = []) ∧
      (r.ok = true ↔
        (NoMissingRequired schema d ∧ (recipeSlugVals d).Nodup ∧
         (ingredientSlugVals d).Nodup ∧ RefsClosed d)) := by
  refine ⟨validateTotal schema d, validate_diff_eq_total schema d hacc, ?_, ?_⟩
  · rw [validateTotal_ok_eq, List.isEmpty_iff]
  · rw [validateTotal_ok_eq, List.isEmpty_iff, validateTotal_errors_eq]
    have he := hacc.2.2.2
    rw [List.append_eq_nil, List.append_eq_nil, List.append_eq_nil, List.append_eq_nil,
      List.append_eq_nil]
    rw [if_singleton_eq_nil, if_singleton_eq_nil, if_singleton_eq_nil, if_singleton_eq_nil,
      if_singleton_eq_nil]
    rw [dupes_eq_nil_iff, dupes_eq_nil_iff, schemaErrors_eq_nil_iff, aliasRefs_ok_iff,
      entryRecipeRefs_ok_iff d he, entryIngredientRefs_ok_iff d he]
    unfold RefsClosed
    tauto

/-- A schema requiring `slug` and `label` on recipe items (both are
required in `data/schema_diff.json`, per the data model). -/
def c5Schema : DiffSchema :=
  ⟨fun sectionName => if sectionName = "recipes" then ["slug", "label"] else []⟩

/-- Claim C5 (refuted as stated): on a well-formed diff whose single
recipe item lacks the required `slug` field, the validator records the
structural error but then crashes with `KeyError` in the duplicate-slug
check (`[r["slug"] for r in recipes]`) instead of returning
`ok = false`. -/
theorem validate_crashes_on_missing_required_slug :
    validate_diff c5Schema ⟨[[("label", Val.vstr "Recipe R")]], [], [], []⟩ =
      Except.error "KeyError: slug" ∧
    schemaErrors c5Schema ⟨[[("label", Val.vstr "Recipe R")]], [], [], []⟩ =
      [VError.missingField "recipes" 0 "slug"] := by
  constructor
  · rfl
  · rfl

/-- A small diff that satisfies the access hypothesis of the amended
claim C5. -/
def c5GoodDiff : RawDiff :=
  ⟨[[("slug", Val.vstr "r"), ("label", Val.vstr "Recipe R")]],
   [[("slug", Val.vstr "i"), ("label", Val.vstr "Ingredient I"),
     ("language", Val.vstr "en")]],
   [[("ingredient_slug", Val.vstr "i"), ("variant_label", Val.vstr "stakte")]],
   [[("recipe_slug", Val.vstr "r"), ("ingredient_slug", Val.vstr "i"),
     ("amount_raw", Val.vstr "2 hin")]]⟩

/-- Witness for the amended claim C5, at a concrete schema and diff. -/
theorem validate_ok_characterization_witness :
    ∃ r, validate_diff c5Schema c5GoodDiff = Except.ok r ∧
      (r.ok = true ↔ r.errors = []) ∧
      (r.ok = true ↔
        (NoMissingRequired c5Schema c5GoodDiff ∧ (recipeSlugVals c5GoodDiff).Nodup ∧
         (ingredientSlugVals c5GoodDiff).Nodup ∧ RefsClosed c5GoodDiff)) :=
  validate_ok_characterization c5Schema c5GoodDiff
    (by refine ⟨?_, ?_, ?_, ?_⟩ <;> decide)

/-! ### Equivalence clusterer (`scripts/generate_equivalences.py`) -/

/-- Python `str.lower()`, modelled on its ASCII core (character-wise
lower-casing). -/
def pyLower (s : String) : String := ⟨s.data.map Char.toLower⟩

/-- Python `str.strip()`: drop leading and trailing whitespace. -/
def pyStrip (s : String) : String :=
  ⟨((s.data.dropWhile Char.isWhitespace).reverse.dropWhile Char.isWhitespace).reverse⟩

/-- `alias["variant_label"].lower().strip()`. -/
def variantKey (s : String) : String := pyStrip (pyLower s)

/-- `ingredient.get("language", "unknown")`: a missing key defaults to
`"unknown"`, a stored `null` reads as Python `None`. -/
def getLangD : StrField → Option String
  | .missing => some "unknown"
  | .null => none
  | .str s => some s

/-- One member record appended to an `english_aliases` bucket. -/
structure EqMember where
  slug : String
  label : String
  language : Option String
deriving DecidableEq

/-- The member record built from a resolved ingredient row. -/
def mkMember (ing : Ingredient) : EqMember :=
  ⟨ing.slug, ing.label, getLangD ing.language⟩

/-- `{i["ingredient_id"]: i for i in ...}.get`: last row with the id
wins. -/
def idDictOf (l : List Ingredient) : Int → Option Ingredient :=
  fun i => (l.filter (fun x => x.ingredient_id = i)).getLast?

/-- `defaultdict(list)` update: append to the bucket of `key`, keeping
first-insertion key order (Python dicts iterate in insertion order). -/
def addToGroups (key : String) (mem : EqMember) :
    List (String × List EqMember) → List (String × List EqMember)
  | [] => [(key, [mem])]
  | (k, ms) :: rest =>
    if k = key then (k, ms ++ [mem]) :: rest
    else (k, ms) :: addToGroups key mem rest

/-- The `english_aliases` accumulation loop of `generate_equivalences`:
for each alias with `language == "en"` whose ingredient id resolves,
append the member to the bucket of the normalized variant label. -/
def englishAliasesOver (ingDict : Int → Option Ingredient) (als : List Alias) :
    List (String × List EqMember) :=
  als.foldl (fun acc al =>
    if al.language = .str "en" then
      match ingDict al.ingredient_id with
      | some ing => addToGroups (variantKey al.variant_label) (mkMember ing) acc
      | none => acc
    else acc) []

/-- The member records contributed to bucket `v` by an alias list, in
alias order. -/
def enOccurrencesOver (ingDict : Int → Option Ingredient) (als : List Alias)
    (v : String) : List EqMember :=
  als.filterMap (fun al =>
    if al.language = .str "en" ∧ variantKey al.variant_label = v then
      (ingDict al.ingredient_id).map mkMember
    else none)

/-- The member records of bucket `v` for a corpus. -/
def enOccurrences (master : Master) (v : String) : List EqMember :=
  enOccurrencesOver (idDictOf master.ingredients) master.aliases v

/-- An equivalence group as emitted to `data/equivalences.json`
(`languages` is `list(set(...))` in Python, whose iteration order is
unspecified; it is modelled as first-occurrence dedup). -/
structure EqGroup where
  canonical_name : String
  confidence : String
  ingredients : List String
  slugs : List String
  languages : List (Option String)
  auto_generated : Bool
deriving DecidableEq

/-- `generate_equivalences.generate_equivalences` (I/O and the fixed
version/date envelope stripped): group resolvable English aliases by
normalized label, keep buckets with more than one member record, assign
`high` confidence for the fixed allow-list else `medium`, and sort by
member count descending (Python's stable sort). -/
def generate_equivalences (master : Master) : List EqGroup :=
  let groups := (englishAliasesOver (idDictOf master.ingredients) master.aliases).filter
    (fun p => p.2.length > 1)
  let gl := groups.map (fun p =>
    (⟨p.1,
      if p.1 ∈ ["myrrh", "honey", "juniper", "cinnamon"] then "high" else "medium",
      p.2.map (fun mem => mem.label),
      p.2.map (fun mem => mem.slug),
      (p.2.map (fun mem => mem.language)).eraseDups,
      true⟩ : EqGroup))
  gl.mergeSort (fun g1 g2 => g2.ingredients.length ≤ g1.ingredients.length)


/-- The bucket stored under key `v` in the accumulated association
(empty if no entry). -/
def lookupBucket (acc : List (String × List EqMember)) (v : String) : List EqMember :=
  match acc.find? (fun p => p.1 = v) with
  | some p => p.2
  | none => []

theorem addToGroups_lookup (k : String) (mem : EqMember) :
    ∀ (acc : List (String × List EqMember)) (v : String),
      lookupBucket (addToGroups k mem acc) v =
        if v = k then lookupBucket acc k ++ [mem] else lookupBucket acc v := by
  intro acc
  induction acc with
  | nil =>
    intro v
    by_cases hv : v = k
    · subst hv
      simp [addToGroups, lookupBucket]
    · have h1 : ¬ (k = v) := fun h => hv h.symm
      simp [addToGroups, lookupBucket, h1, hv]
  | cons hd rest ih =>
    intro v
    rcases hd with ⟨k0, ms⟩
    by_cases hk0 : k0 = k
    · subst hk0
      simp only [addToGroups, if_pos rfl]
      by_cases hv : v = k0
      · subst hv
        simp [lookupBucket]
      · have h1 : ¬ (k0 = v) := fun h => hv h.symm
        simp [lookupBucket, h1, hv]
    · simp only [addToGroups, if_neg hk0]
      by_cases hv : v = k0
      · have hvk : ¬ (v = k) := fun h => hk0 (hv ▸ h)
        have h1 : (k0 = v) := hv.symm
        simp [lookupBucket, h1, hvk]
      · have h1 : ¬ (k0 = v) := fun h => hv h.symm
        have h2 : ¬ (k0 = k) := hk0
        have hskipv : lookupBucket ((k0, ms) :: rest) v = lookupBucket rest v := by
          unfold lookupBucket
          rw [List.find?_cons_of_neg _ (by simpa using h1)]
        have hskipk : lookupBucket ((k0, ms) :: rest) k = lookupBucket rest k := by
          unfold lookupBucket
          rw [List.find?_cons_of_neg _ (by simpa using h2)]
        have hskipA : lookupBucket ((k0, ms) :: addToGroups k mem rest) v =
            lookupBucket (addToGroups k mem rest) v := by
          unfold lookupBucket
          rw [List.find?_cons_of_neg _ (by simpa using h1)]
        rw [hskipA, ih v, hskipv, hskipk]

theorem addToGroups_keys (k : String) (mem : EqMember) :
    ∀ (acc : List (String × List EqMember)),
      (addToGroups k mem acc).map (fun p => p.1) =
        if k ∈ acc.map (fun p => p.1) then acc.map (fun p => p.1)
        else acc.map (fun p => p.1) ++ [k] := by
  intro acc
  induction acc with
  | nil => simp [addToGroups]
  | cons hd rest ih =>
    rcases hd with ⟨k0, ms⟩
    by_cases hk0 : k0 = k
    · subst hk0
      simp [addToGroups]
    · have h1 : ¬ (k = k0) := fun h => hk0 h.symm
      simp only [addToGroups, if_neg hk0, List.map_cons, List.mem_cons, h1, false_or]
      rw [ih]
      by_cases hmem : k ∈ rest.map (fun p => p.1)
      · simp [hmem]
      · simp [hmem]

theorem addToGroups_nonempty (k : String) (mem : EqMember) :
    ∀ (acc : List (String × List EqMember)),
      (∀ p ∈ acc, p.2 ≠ []) → ∀ p ∈ addToGroups k mem acc, p.2 ≠ [] := by
  intro acc
  induction acc with
  | nil =>
    intro _ p hp
    simp only [addToGroups, List.mem_singleton] at hp
    subst hp
    simp
  | cons hd rest ih =>
    intro h p hp
    rcases hd with ⟨k0, ms⟩
    by_cases hk0 : k0 = k
    · subst hk0
      simp only [addToGroups, if_pos rfl] at hp
      cases hp with
      | head => simp
      | tail _ h1 => exact h _ (List.mem_cons_of_mem _ h1)
    · simp only [addToGroups, if_neg hk0] at hp
      cases hp with
      | head => exact h _ (List.mem_cons_self _ _)
      | tail _ h1 => exact ih (fun q hq => h q (List.mem_cons_of_mem _ hq)) _ h1

/-- Invariant of the `english_aliases` accumulation: keys are distinct
(dict keys), each bucket holds exactly the occurrences contributed by
the processed aliases, and no bucket is empty. -/
def AssocInv (ingDict : Int → Option Ingredient) (processed : List Alias)
    (acc : List (String × List EqMember)) : Prop :=
  (acc.map (fun p => p.1)).Nodup ∧
  (∀ v, lookupBucket acc v = enOccurrencesOver ingDict processed v) ∧
  (∀ p ∈ acc, p.2 ≠ [])

theorem enOccurrencesOver_append (ingDict : Int → Option Ingredient)
    (xs ys : List Alias) (v : String) :
    enOccurrencesOver ingDict (xs ++ ys) v =
      enOccurrencesOver ingDict xs v ++ enOccurrencesOver ingDict ys v := by
  unfold enOccurrencesOver
  exact List.filterMap_append _ _ _

theorem englishAliases_fold (ingDict : Int → Option Ingredient) :
    ∀ (als : List Alias) (processed : List Alias)
      (acc : List (String × List EqMember)),
      AssocInv ingDict processed acc →
      AssocInv ingDict (processed ++ als)
        (als.foldl (fun acc al =>
          if al.language = .str "en" then
            match ingDict al.ingredient_id with
            | some ing => addToGroups (variantKey al.variant_label) (mkMember ing) acc
            | none => acc
          else acc) acc) := by
  intro als
  induction als with
  | nil =>
    intro processed acc h
    simpa using h
  | cons al rest ih =>
    intro processed acc h
    rcases h with ⟨hnd, hlk, hne⟩
    rw [List.foldl_cons]
    have hsingle : ∀ v, enOccurrencesOver ingDict (processed ++ [al]) v =
        enOccurrencesOver ingDict processed v ++
          (if al.language = .str "en" ∧ variantKey al.variant_label = v then
            ((ingDict al.ingredient_id).map mkMember).toList else []) := by
      intro v
      rw [enOccurrencesOver_append]
      congr 1
      unfold enOccurrencesOver
      rw [List.filterMap_cons]
      by_cases hc : al.language = .str "en" ∧ variantKey al.variant_label = v
      · rw [if_pos hc, if_pos hc]
        cases ingDict al.ingredient_id <;> simp
      · rw [if_neg hc, if_neg hc]
        simp
    have hstep : AssocInv ingDict (processed ++ [al])
        (if al.language = .str "en" then
          match ingDict al.ingredient_id with
          | some ing => addToGroups (variantKey al.variant_label) (mkMember ing) acc
          | none => acc
          else acc) := by
      by_cases hlang : al.language = .str "en"
      · rcases hfind : ingDict al.ingredient_id with _ | ing
        · rw [if_pos hlang]
          refine ⟨hnd, ?_, hne⟩
          intro v
          rw [hsingle v]
          by_cases hc : al.language = .str "en" ∧ variantKey al.variant_label = v
          · rw [if_pos hc, hfind]
            simpa using hlk v
          · rw [if_neg hc]
            simpa using hlk v
        · rw [if_pos hlang]
          refine ⟨?_, ?_, addToGroups_nonempty _ _ acc hne⟩
          · rw [addToGroups_keys]
            by_cases hmem : variantKey al.variant_label ∈ acc.map (fun p => p.1)
            · rw [if_pos hmem]
              exact hnd
            · rw [if_neg hmem]
              simp [List.nodup_append, hnd, hmem]
          · intro v
            rw [addToGroups_lookup, hsingle v]
            by_cases hv : v = variantKey al.variant_label
            · subst hv
              rw [if_pos rfl, if_pos ⟨hlang, rfl⟩, hfind,
                hlk (variantKey al.variant_label)]
              rfl
            · have hc : ¬ (al.language = .str "en" ∧ variantKey al.variant_label = v) :=
                fun hh => hv hh.2.symm
              rw [if_neg hv, if_neg hc, hlk v]
              simp
      · rw [if_neg hlang]
        refine ⟨hnd, ?_, hne⟩
        intro v
        rw [hsingle v]
        have hc : ¬ (al.language = .str "en" ∧ variantKey al.variant_label = v) :=
          fun hh => hlang hh.1
        rw [if_neg hc]
        simpa using hlk v
    have := ih (processed ++ [al]) _ hstep
    simpa [List.append_assoc] using this

theorem find?_key_of_mem_nodup {acc : List (String × List EqMember)}
    (hn : (acc.map (fun p => p.1)).Nodup) {p : String × List EqMember} (hp : p ∈ acc) :
    acc.find? (fun q => q.1 = p.1) = some p := by
  induction acc with
  | nil => cases hp
  | cons hd rest ih =>
    simp only [List.map_cons, List.nodup_cons] at hn
    cases hp with
    | head => exact List.find?_cons_of_pos _ (by simp)
    | tail _ h1 =>
      have hne : ¬ (hd.1 = p.1) := by
        intro h
        exact hn.1 (h ▸ List.mem_map.mpr ⟨p, h1, rfl⟩)
      rw [List.find?_cons_of_neg _ (by simpa using hne)]
      exact ih hn.2 h1

theorem assocInv_top (m : Master) :
    AssocInv (idDictOf m.ingredients) m.aliases
      (englishAliasesOver (idDictOf m.ingredients) m.aliases) := by
  have h0 : AssocInv (idDictOf m.ingredients) [] [] := by
    refine ⟨List.nodup_nil, ?_, ?_⟩
    · intro v
      rfl
    · intro p hp
      cases hp
  have := englishAliases_fold (idDictOf m.ingredients) m.aliases [] [] h0
  simpa [englishAliasesOver] using this

/-- Membership in the generated group list, unfolded through the final
stable sort. -/
theorem mem_generate_equivalences (m : Master) (g : EqGroup) :
    g ∈ generate_equivalences m ↔
      ∃ p ∈ (englishAliasesOver (idDictOf m.ingredients) m.aliases).filter
          (fun p => p.2.length > 1),
        g = (⟨p.1,
          if p.1 ∈ ["myrrh", "honey", "juniper", "cinnamon"] then "high" else "medium",
          p.2.map (fun mem => mem.label),
          p.2.map (fun mem => mem.slug),
          (p.2.map (fun mem => mem.language)).eraseDups,
          true⟩ : EqGroup) := by
  unfold generate_equivalences
  rw [List.mem_mergeSort, List.mem_map]
  constructor
  · rintro ⟨p, hp, rfl⟩
    exact ⟨p, hp, rfl⟩
  · rintro ⟨p, hp, rfl⟩
    exact ⟨p, hp, rfl⟩

/-- Every bucket of the accumulated association holds exactly the
occurrence list of its key. -/
theorem bucket_eq_occurrences (m : Master) :
    ∀ p ∈ englishAliasesOver (idDictOf m.ingredients) m.aliases,
      p.2 = enOccurrences m p.1 := by
  rcases assocInv_top m with ⟨hnd, hlk, _⟩
  intro p hp
  have hfind := find?_key_of_mem_nodup hnd hp
  have h2 := hlk p.1
  unfold lookupBucket at h2
  rw [hfind] at h2
  exact h2

/-- A normalized English alias with more than one resolvable occurrence
always yields a group named after it. -/
theorem gen_groups_exist (m : Master) (v : String)
    (hv : (enOccurrences m v).length > 1) :
    ∃ g ∈ generate_equivalences m, g.canonical_name = v := by
  rcases assocInv_top m with ⟨hnd, hlk, _⟩
  have hbne : enOccurrences m v ≠ [] := by
    intro h
    rw [h] at hv
    simp at hv
  have hlkv := hlk v
  unfold lookupBucket at hlkv
  rcases hfind : (englishAliasesOver (idDictOf m.ingredients) m.aliases).find?
      (fun p => p.1 = v) with _ | p
  · rw [hfind] at hlkv
    have h0 : ([] : List EqMember) = enOccurrences m v := hlkv
    exact absurd h0.symm hbne
  · rw [hfind] at hlkv
    have hlkv2 : p.2 = enOccurrences m v := hlkv
    have hpv : p.1 = v := by
      have := List.find?_some hfind
      simpa using this
    have hpassoc := List.mem_of_find?_eq_some hfind
    have hfilter : p ∈ (englishAliasesOver (idDictOf m.ingredients) m.aliases).filter
        (fun p => p.2.length > 1) := by
      apply List.mem_filter.mpr
      refine ⟨hpassoc, ?_⟩
      simp only [decide_eq_true_eq]
      rw [hlkv2]
      exact hv
    exact ⟨_, (mem_generate_equivalences m _).mpr ⟨p, hfilter, rfl⟩, hpv⟩

/-- Every emitted group is faithful to its occurrence list. -/
theorem gen_groups_sound (m : Master) :
    ∀ g ∈ generate_equivalences m,
      (enOccurrences m g.canonical_name).length > 1 ∧
      g.slugs = (enOccurrences m g.canonical_name).map (fun mem => mem.slug) ∧
      g.ingredients = (enOccurrences m g.canonical_name).map (fun mem => mem.label) ∧
      g.confidence = (if g.canonical_name ∈ ["myrrh", "honey", "juniper", "cinnamon"]
        then "high" else "medium") ∧
      g.auto_generated = true := by
  intro g hg
  rcases (mem_generate_equivalences m g).mp hg with ⟨p, hp, rfl⟩
  rcases List.mem_filter.mp hp with ⟨hpassoc, hlen⟩
  have hocc := bucket_eq_occurrences m p hpassoc
  simp only [decide_eq_true_eq] at hlen
  exact ⟨hocc ▸ hlen, by rw [← hocc], by rw [← hocc], rfl, rfl⟩

/-- Canonical names of the emitted groups are pairwise distinct. -/
theorem gen_groups_names_nodup (m : Master) :
    ((generate_equivalences m).map (fun g => g.canonical_name)).Nodup := by
  rcases assocInv_top m with ⟨hnd, _, _⟩
  have hperm : ((generate_equivalences m).map (fun g => g.canonical_name)).Perm
      ((((englishAliasesOver (idDictOf m.ingredients) m.aliases).filter
        (fun p => p.2.length > 1)).map (fun p =>
          (⟨p.1,
            if p.1 ∈ ["myrrh", "honey", "juniper", "cinnamon"] then "high" else "medium",
            p.2.map (fun mem => mem.label),
            p.2.map (fun mem => mem.slug),
            (p.2.map (fun mem => mem.language)).eraseDups,
            true⟩ : EqGroup))).map (fun g => g.canonical_name)) := by
    unfold generate_equivalences
    exact (List.mergeSort_perm _ _).map _
  apply (List.Perm.nodup_iff hperm).mpr
  rw [List.map_map]
  have hsub : ((englishAliasesOver (idDictOf m.ingredients) m.aliases).filter
      (fun p => p.2.length > 1)).Sublist
        (englishAliasesOver (idDictOf m.ingredients) m.aliases) :=
    List.filter_sublist _
  have := hnd.sublist (hsub.map (fun p => p.1))
  simpa using this

/-- A corpus with one ingredient carrying two English alias rows that
both normalize to `juniper`. -/
def c8SingleIngredient : Master :=
  ⟨[], [⟨1, "i1", "Ingredient One", .missing⟩],
   [⟨1, 1, "juniper", .str "en", .missing⟩,
    ⟨2, 1, " Juniper ", .str "en", .missing⟩], []⟩

/-- Claim C8 (refuted as stated): the clusterer counts alias-row
occurrences, not distinct ingredients, so a single ingredient carrying
two English alias rows that normalize identically does produce a group —
the claim's clause "an alias shared by only one ingredient yields no
group" fails. -/
theorem generate_equivalences_single_ingredient_group :
    (∃ g ∈ generate_equivalences c8SingleIngredient, g.canonical_name = "juniper") ∧
    c8SingleIngredient.ingredients.length = 1 :=
  ⟨gen_groups_exist c8SingleIngredient "juniper" (by decide), rfl⟩

/-- Claim C8 (amended): under the exact/automatic strategy, every
normalized English alias string with two or more resolvable alias-row
occurrences — even when they all belong to one ingredient — produces
exactly one equivalence group whose canonical name is that normalized
string and whose slug and label lists are those of the occurrences in
alias order; the confidence is `high` exactly when the canonical name is
in the fixed allow-list (myrrh, honey, juniper, cinnamon) and `medium`
otherwise; a normalized alias with at most one occurrence yields no
group. -/
theorem generate_equivalences_characterization (m : Master) :
    (∀ g ∈ generate_equivalences m,
      (enOccurrences m g.canonical_name).length > 1 ∧
      g.slugs = (enOccurrences m g.canonical_name).map (fun mem => mem.slug) ∧
      g.ingredients = (enOccurrences m g.canonical_name).map (fun mem => mem.label) ∧
      g.confidence = (if g.canonical_name ∈ ["myrrh", "honey", "juniper", "cinnamon"]
        then "high" else "medium") ∧
      g.auto_generated = true) ∧
    (∀ v, (enOccurrences m v).length > 1 →
      ∃ g ∈ generate_equivalences m, g.canonical_name = v) ∧
    ((generate_equivalences m).map (fun g => g.canonical_name)).Nodup ∧
    (∀ v, (enOccurrences m v).length ≤ 1 →
      ¬ ∃ g ∈ generate_equivalences m, g.canonical_name = v) := by
  refine ⟨gen_groups_sound m, fun v hv => gen_groups_exist m v hv,
    gen_groups_names_nodup m, ?_⟩
  intro v hv ⟨g, hg, hgv⟩
  have := (gen_groups_sound m g hg).1
  rw [hgv] at this
  omega

/-- A corpus realizing scenario D: two distinct ingredients each carry
the English alias `juniper`. -/
def c8TwoIngredients : Master :=
  ⟨[], [⟨1, "juniperus-communis", "Juniperus communis", .missing⟩,
        ⟨2, "juniperus-phoenicea", "Juniperus phoenicea", .missing⟩],
   [⟨1, 1, "juniper", .str "en", .missing⟩,
    ⟨2, 2, "juniper", .str "en", .missing⟩], []⟩

/-- Witness for the amended claim C8, at scenario D: the two-ingredient
corpus yields a `juniper` group. -/
theorem generate_equivalences_characterization_witness :
    ∃ g ∈ generate_equivalences c8TwoIngredients, g.canonical_name = "juniper" :=
  (generate_equivalences_characterization c8TwoIngredients).2.1 "juniper" (by decide)

/-! ### Fuzzy matcher (`scripts/ingredient_db.py`,
`scripts/link_ingredients.py`), built on `difflib.SequenceMatcher` with
`isjunk=None`.  Scores (`Python` floats) are modelled as exact
rationals. -/

/-- The ascending occurrence positions of `c` in `b` (the `b2j` dict of
`SequenceMatcher.__chain_b` before the popularity purge). -/
def positions (b : List Char) (c : Char) : List Nat :=
  (List.range b.length).filter (fun j => b.getD j ' ' = c)

/-- The autojunk rule of `__chain_b` (`autojunk=True` by default): with
`len(b) >= 200`, an element occurring more than `n // 100 + 1` times is
purged from `b2j`.  (Such elements go to `bpopular`, not to `bjunk`,
so `isbjunk` is unaffected.) -/
def popularB (b : List Char) (c : Char) : Bool :=
  decide (200 ≤ b.length) && decide (b.length / 100 + 1 < (positions b c).length)

/-- `b2j.get(elt, [])` after the popularity purge. -/
def b2j (b : List Char) (c : Char) : List Nat :=
  if popularB b c then [] else positions b c

/-- The inner loop of `find_longest_match` over `b2j[a[i]]`: skip
`j < blo` (`continue`), stop at the first `j >= bhi` (`break`; the
position lists are ascending), otherwise set
`k = newj2len[j] = j2len.get(j-1, 0) + 1` and take the block if
`k > bestsize`.  Python's `j2len.get(j-1, 0)` for `j = 0` looks up key
`-1`, which is never present, hence the explicit `j = 0` guard. -/
def innerLoop (blo bhi i : Nat) (j2len : Nat → Nat) :
    List Nat → (Nat → Nat) → (Nat × Nat × Nat) → ((Nat → Nat) × (Nat × Nat × Nat))
  | [], newj2len, best => (newj2len, best)
  | j :: js, newj2len, best =>
    if j < blo then innerLoop blo bhi i j2len js newj2len best
    else if bhi ≤ j then (newj2len, best)
    else
      let k := (if j = 0 then 0 else j2len (j - 1)) + 1
      let newj2len2 := fun j2 => if j2 = j then k else newj2len j2
      let best2 := if best.2.2 < k then (i + 1 - k, j + 1 - k, k) else best
      innerLoop blo bhi i j2len js newj2len2 best2

/-- The outer loop of `find_longest_match` over `i in range(alo, ahi)`;
each row starts from a fresh empty `newj2len`. -/
def mainLoop (b2jf : Char → List Nat) (a : List Char) (blo bhi : Nat) :
    List Nat → (Nat → Nat) → (Nat × Nat × Nat) → ((Nat → Nat) × (Nat × Nat × Nat))
  | [], j2len, best => (j2len, best)
  | i :: rows, j2len, best =>
    let r := innerLoop blo bhi i j2len (b2jf (a.getD i ' ')) (fun _ => 0) best
    mainLoop b2jf a blo bhi rows r.1 r.2

/-- A backward extension `while` loop of `find_longest_match`
(`p` is `not isbjunk` for the first pair of loops, `isbjunk` for the
second). -/
def extendBack (a b : List Char) (alo blo : Nat) (p : Char → Bool)
    (besti bestj bestsize : Nat) : Nat × Nat × Nat :=
  if h : alo < besti ∧ blo < bestj ∧ p (b.getD (bestj - 1) ' ') = true ∧
      a.getD (besti - 1) ' ' = b.getD (bestj - 1) ' ' then
    extendBack a b alo blo p (besti - 1) (bestj - 1) (bestsize + 1)
  else (besti, bestj, bestsize)
termination_by besti
decreasing_by omega

/-- A forward extension `while` loop of `find_longest_match`. -/
def extendFwd (a b : List Char) (ahi bhi : Nat) (p : Char → Bool)
    (besti bestj bestsize : Nat) : Nat × Nat × Nat :=
  if h : besti + bestsize < ahi ∧ bestj + bestsize < bhi ∧
      p (b.getD (bestj + bestsize) ' ') = true ∧
      a.getD (besti + bestsize) ' ' = b.getD (bestj + bestsize) ' ' then
    extendFwd a b ahi bhi p besti bestj (bestsize + 1)
  else (besti, bestj, bestsize)
termination_by ahi - (besti + bestsize)
decreasing_by omega

/-- `SequenceMatcher.find_longest_match` on `[alo, ahi) × [blo, bhi)`.
With `isjunk=None` (all call sites) `self.bjunk` is empty, so `isbjunk`
is constantly false: the non-junk extension loops test `!bjunk` and the
junk extension loops test `bjunk`. -/
def find_longest_match (a b : List Char) (alo ahi blo bhi : Nat) : Nat × Nat × Nat :=
  let bjunk : Char → Bool := fun _ => false
  let r := mainLoop (b2j b) a blo bhi (List.range' alo (ahi - alo))
    (fun _ => 0) (alo, blo, 0)
  let e1 := extendBack a b alo blo (fun c => !bjunk c) r.2.1 r.2.2.1 r.2.2.2
  let e2 := extendFwd a b ahi bhi (fun c => !bjunk c) e1.1 e1.2.1 e1.2.2
  let e3 := extendBack a b alo blo bjunk e2.1 e2.2.1 e2.2.2
  extendFwd a b ahi bhi bjunk e3.1 e3.2.1 e3.2.2

/-- The best-match candidate stays inside the requested window; a
nonzero size fits in both ranges, and a zero size means the initial
`(alo, blo, 0)` candidate. -/
def BestInv (alo blo ahi bhi : Nat) (best : Nat × Nat × Nat) : Prop :=
  alo ≤ best.1 ∧ blo ≤ best.2.1 ∧
  (1 ≤ best.2.2 → best.1 + best.2.2 ≤ ahi ∧ best.2.1 + best.2.2 ≤ bhi) ∧
  (best.2.2 = 0 → best.1 = alo ∧ best.2.1 = blo)

/-- `j2len` values are bounded by the current row window on the `a`
side, and by the column window on the `b` side. -/
def MapInvB (blo : Nat) (v : Nat → Nat) : Prop :=
  ∀ j, v j = 0 ∨ blo + v j ≤ j + 1

theorem innerLoop_inv (blo bhi alo ahi i : Nat) (hlo : alo ≤ i) (hhi : i < ahi)
    (j2len : Nat → Nat) (hA : ∀ j, j2len j + alo ≤ i) (hB : MapInvB blo j2len) :
    ∀ (js : List Nat) (newm : Nat → Nat) (best : Nat × Nat × Nat),
      (∀ j, newm j + alo ≤ i + 1) → MapInvB blo newm →
      BestInv alo blo ahi bhi best →
      (∀ j, (innerLoop blo bhi i j2len js newm best).1 j + alo ≤ i + 1) ∧
      MapInvB blo (innerLoop blo bhi i j2len js newm best).1 ∧
      BestInv alo blo ahi bhi (innerLoop blo bhi i j2len js newm best).2 := by
  intro js
  induction js with
  | nil =>
    intro newm best h1 h2 h3
    exact ⟨h1, h2, h3⟩
  | cons j js ih =>
    intro newm best h1 h2 h3
    by_cases hjlo : j < blo
    · simp only [innerLoop, if_pos hjlo]
      exact ih newm best h1 h2 h3
    · by_cases hjhi : bhi ≤ j
      · simp only [innerLoop, if_neg hjlo, if_pos hjhi]
        exact ⟨h1, h2, h3⟩
      · simp only [innerLoop, if_neg hjlo, if_neg hjhi]
        have hblo : blo ≤ j := Nat.le_of_not_lt hjlo
        have hjbhi : j < bhi := Nat.lt_of_not_le hjhi
        set k := (if j = 0 then 0 else j2len (j - 1)) + 1 with hk
        have hkA : k + alo ≤ i + 1 := by
          rw [hk]
          by_cases hj0 : j = 0
          · rw [if_pos hj0]
            omega
          · rw [if_neg hj0]
            have := hA (j - 1)
            omega
        have hkB : blo + k ≤ j + 1 := by
          rw [hk]
          by_cases hj0 : j = 0
          · rw [if_pos hj0]
            omega
          · rw [if_neg hj0]
            rcases hB (j - 1) with h | h
            · rw [h]
              omega
            · omega
        apply ih
        · intro j2
          by_cases hj2 : j2 = j
          · simp only [if_pos hj2]
            omega
          · simp only [if_neg hj2]
            exact h1 j2
        · intro j2
          by_cases hj2 : j2 = j
          · simp only [if_pos hj2]
            right
            omega
          · simp only [if_neg hj2]
            exact h2 j2
        · by_cases hfire : best.2.2 < k
          · simp only [if_pos hfire]
            unfold BestInv
            dsimp only
            refine ⟨by omega, by omega, by omega, by omega⟩
          · simp only [if_neg hfire]
            exact h3

theorem mainLoop_inv (b2jf : Char → List Nat) (a : List Char) (alo blo ahi bhi : Nat) :
    ∀ (n r : Nat) (j2len : Nat → Nat) (best : Nat × Nat × Nat),
      alo ≤ r → r + n ≤ ahi →
      (∀ j, j2len j + alo ≤ r) → MapInvB blo j2len →
      BestInv alo blo ahi bhi best →
      BestInv alo blo ahi bhi
        (mainLoop b2jf a blo bhi (List.range' r n) j2len best).2 := by
  intro n
  induction n with
  | zero =>
    intro r j2len best _ _ _ _ h5
    simpa [mainLoop] using h5
  | succ n ih =>
    intro r j2len best h1 h2 h3 h4 h5
    rw [List.range'_succ]
    simp only [mainLoop]
    have hrow := innerLoop_inv blo bhi alo ahi r h1 (by omega) j2len h3 h4
      (b2jf (a.getD r ' ')) (fun _ => 0) best (by intro j; simp; omega)
      (by intro j; left; rfl) h5
    exact ih (r + 1) _ _ (by omega) (by omega)
      (fun j => hrow.1 j) hrow.2.1 hrow.2.2

theorem extendBack_inv (a b : List Char) (alo blo ahi bhi : Nat) (p : Char → Bool) :
    ∀ (besti bestj bestsize : Nat),
      BestInv alo blo ahi bhi (besti, bestj, bestsize) →
      BestInv alo blo ahi bhi (extendBack a b alo blo p besti bestj bestsize) := by
  intro besti
  induction besti using Nat.strong_induction_on with
  | _ besti ih =>
    intro bestj bestsize h
    rw [extendBack]
    split
    · rename_i hcond
      apply ih (besti - 1) (by omega)
      unfold BestInv at h ⊢
      dsimp only at h ⊢
      rcases h with ⟨hh1, hh2, hh3, hh4⟩
      refine ⟨by omega, by omega, ?_, by omega⟩
      intro _
      by_cases hsz : 1 ≤ bestsize
      · have := hh3 hsz
        omega
      · have hz : bestsize = 0 := by omega
        have := hh4 hz
        omega
    · exact h

theorem extendFwd_inv (a b : List Char) (alo blo ahi bhi : Nat) (p : Char → Bool) :
    ∀ (fuel besti bestj bestsize : Nat), fuel = ahi - (besti + bestsize) →
      BestInv alo blo ahi bhi (besti, bestj, bestsize) →
      BestInv alo blo ahi bhi (extendFwd a b ahi bhi p besti bestj bestsize) := by
  intro fuel
  induction fuel using Nat.strong_induction_on with
  | _ fuel ih =>
    intro besti bestj bestsize hfuel h
    rw [extendFwd]
    split
    · rename_i hcond
      apply ih (ahi - (besti + bestsize + 1)) (by omega) besti bestj (bestsize + 1) rfl
      unfold BestInv at h ⊢
      dsimp only at h ⊢
      rcases h with ⟨hh1, hh2, hh3, hh4⟩
      refine ⟨hh1, hh2, by omega, by omega⟩
    · exact h

/-- The result of `find_longest_match` lies inside the requested
window; with a zero size the initial `(alo, blo)` corner is returned. -/
theorem flm_bounds (a b : List Char) (alo ahi blo bhi : Nat) :
    BestInv alo blo ahi bhi (find_longest_match a b alo ahi blo bhi) := by
  unfold find_longest_match
  have hinit : BestInv alo blo ahi bhi (alo, blo, 0) := by
    refine ⟨le_refl _, le_refl _, ?_, fun _ => ⟨rfl, rfl⟩⟩
    intro h
    simp at h
  have hmain : BestInv alo blo ahi bhi
      (mainLoop (b2j b) a blo bhi (List.range' alo (ahi - alo))
        (fun _ => 0) (alo, blo, 0)).2 := by
    by_cases hle : alo ≤ ahi
    · exact mainLoop_inv (b2j b) a alo blo ahi bhi (ahi - alo) alo _ _
        (le_refl _) (by omega) (by intro j; simp) (by intro j; left; rfl) hinit
    · have : ahi - alo = 0 := by omega
      rw [this]
      simpa [mainLoop] using hinit
  apply extendFwd_inv a b alo blo ahi bhi _ _ _ _ _ rfl
  apply extendBack_inv
  apply extendFwd_inv a b alo blo ahi bhi _ _ _ _ _ rfl
  apply extendBack_inv
  exact hmain

/-- `find_longest_match` applied to a queued region
`(alo, ahi, blo, bhi)`. -/
def flmAt (a b : List Char) (r : Nat × Nat × Nat × Nat) : Nat × Nat × Nat :=
  find_longest_match a b r.1 r.2.1 r.2.2.1 r.2.2.2

/-- Sum of the block sizes of a list of match triples
(`sum(triple[-1] for triple in ...)`). -/
def ksum (l : List (Nat × Nat × Nat)) : Nat := (l.map (fun t => t.2.2)).sum

/-- Termination measure of the `get_matching_blocks` queue loop: each
region contributes its two window widths plus one. -/
def qsize (q : List (Nat × Nat × Nat × Nat)) : Nat :=
  (q.map (fun r => r.2.1 - r.1 + (r.2.2.2 - r.2.2.1) + 1)).sum

/-- The `while queue` loop of `get_matching_blocks`: pop a region
(Python pops from the end of the list; the head here), find the longest
match, record it if nonempty, and push the two flanking subregions
(the right one is popped first, matching Python's LIFO order).  The
accumulator collects the matches in pop order. -/
def gmbLoop (a b : List Char) :
    List (Nat × Nat × Nat × Nat) → List (Nat × Nat × Nat) → List (Nat × Nat × Nat)
  | [], acc => acc.reverse
  | r :: queue, acc =>
    if hk : 0 < (flmAt a b r).2.2 then
      gmbLoop a b
        ((if (flmAt a b r).1 + (flmAt a b r).2.2 < r.2.1 ∧
              (flmAt a b r).2.1 + (flmAt a b r).2.2 < r.2.2.2 then
            [((flmAt a b r).1 + (flmAt a b r).2.2, r.2.1,
              (flmAt a b r).2.1 + (flmAt a b r).2.2, r.2.2.2)]
          else []) ++
         (if r.1 < (flmAt a b r).1 ∧ r.2.2.1 < (flmAt a b r).2.1 then
            [(r.1, (flmAt a b r).1, r.2.2.1, (flmAt a b r).2.1)]
          else []) ++ queue)
        (flmAt a b r :: acc)
    else gmbLoop a b queue acc
termination_by q _ => qsize q
decreasing_by
  · have hb : BestInv r.1 r.2.2.1 r.2.1 r.2.2.2 (flmAt a b r) :=
      flm_bounds a b r.1 r.2.1 r.2.2.1 r.2.2.2
    obtain ⟨h1, h2, h3, _⟩ := hb
    have h5 := h3 hk
    simp only [qsize, List.map_append, List.sum_append, List.map_cons, List.sum_cons]
    split <;> split <;>
      simp only [List.map_cons, List.map_nil, List.sum_cons, List.sum_nil] <;> omega
  · simp only [qsize, List.map_cons, List.sum_cons]
    omega

/-- Python tuple comparison on match triples (the `sort()` key of
`matching_blocks`). -/
def tripleLe (x y : Nat × Nat × Nat) : Bool :=
  decide (x.1 < y.1 ∨ (x.1 = y.1 ∧ (x.2.1 < y.2.1 ∨ (x.2.1 = y.2.1 ∧ x.2.2 ≤ y.2.2))))

/-- The adjacency-coalescing second loop of `get_matching_blocks`:
running triple `(i1, j1, k1)` absorbs an adjacent block, and is emitted
(when nonempty) whenever a non-adjacent block arrives and once at the
end. -/
def mergeAdjacent : Nat → Nat → Nat → List (Nat × Nat × Nat) → List (Nat × Nat × Nat)
  | i1, j1, k1, [] => if k1 ≠ 0 then [(i1, j1, k1)] else []
  | i1, j1, k1, (i2, j2, k2) :: rest =>
    if i1 + k1 = i2 ∧ j1 + k1 = j2 then mergeAdjacent i1 j1 (k1 + k2) rest
    else (if k1 ≠ 0 then [(i1, j1, k1)] else []) ++ mergeAdjacent i2 j2 k2 rest

/-- `SequenceMatcher.get_matching_blocks`: run the queue loop from the
full rectangle, sort the collected triples, coalesce adjacent blocks,
and append the `(la, lb, 0)` sentinel. -/
def get_matching_blocks (a b : List Char) : List (Nat × Nat × Nat) :=
  mergeAdjacent 0 0 0 ((gmbLoop a b [(0, a.length, 0, b.length)] []).mergeSort tripleLe)
    ++ [(a.length, b.length, 0)]

/-- `difflib._calculate_ratio(matches, length)`:
`2.0 * matches / length` guarded by `length`, else `1.0`.  Python
floats are modelled as exact rationals. -/
def calcRQ (matched length : Nat) : ℚ :=
  if length ≠ 0 then 2 * (matched : ℚ) / (length : ℚ) else 1

/-- `SequenceMatcher.ratio()`: twice the total matched size over the
total length. -/
def ratioQ (a b : List Char) : ℚ :=
  calcRQ (ksum (get_matching_blocks a b)) (a.length + b.length)

theorem ksum_reverse (l : List (Nat × Nat × Nat)) : ksum l.reverse = ksum l := by
  simp [ksum, List.sum_reverse]

theorem mergeAdjacent_ksum :
    ∀ (l : List (Nat × Nat × Nat)) (i1 j1 k1 : Nat),
      ksum (mergeAdjacent i1 j1 k1 l) = k1 + ksum l := by
  intro l
  induction l with
  | nil =>
    intro i1 j1 k1
    by_cases h : k1 = 0 <;> simp [mergeAdjacent, ksum, h]
  | cons t rest ih =>
    intro i1 j1 k1
    obtain ⟨i2, j2, k2⟩ := t
    by_cases h : i1 + k1 = i2 ∧ j1 + k1 = j2
    · rw [show mergeAdjacent i1 j1 k1 ((i2, j2, k2) :: rest)
          = mergeAdjacent i1 j1 (k1 + k2) rest by simp [mergeAdjacent, h]]
      rw [ih]
      simp [ksum]
      omega
    · rw [show mergeAdjacent i1 j1 k1 ((i2, j2, k2) :: rest)
          = (if k1 ≠ 0 then [(i1, j1, k1)] else []) ++ mergeAdjacent i2 j2 k2 rest by
            simp [mergeAdjacent, h]]
      by_cases hk : k1 = 0 <;> simp [ksum, hk] at ih ⊢ <;> rw [ih] <;> omega

/-- The queue loop never collects more matched size than the total `a`
width (respectively `b` width) of the queued regions. -/
theorem gmbLoop_ksum_le (a b : List Char) :
    ∀ (q : List (Nat × Nat × Nat × Nat)) (acc : List (Nat × Nat × Nat)),
      ksum (gmbLoop a b q acc) ≤ (q.map (fun r => r.2.1 - r.1)).sum + ksum acc ∧
      ksum (gmbLoop a b q acc) ≤ (q.map (fun r => r.2.2.2 - r.2.2.1)).sum + ksum acc := by
  intro q acc
  induction q, acc using gmbLoop.induct a b with
  | case1 acc =>
    rw [gmbLoop]
    rw [ksum_reverse]
    constructor <;> simp
  | case2 r queue acc hk ih =>
    rw [gmbLoop]
    rw [dif_pos hk]
    have hb : BestInv r.1 r.2.2.1 r.2.1 r.2.2.2 (flmAt a b r) :=
      flm_bounds a b r.1 r.2.1 r.2.2.1 r.2.2.2
    obtain ⟨h1, h2, h3, _⟩ := hb
    have h5 := h3 hk
    obtain ⟨ihA, ihB⟩ := ih
    constructor
    · refine le_trans ihA ?_
      simp only [List.map_append, List.sum_append, List.map_cons, List.sum_cons, ksum,
        List.map_nil, List.sum_nil]
      split <;> split <;>
        simp only [List.map_cons, List.map_nil, List.sum_cons, List.sum_nil] <;> omega
    · refine le_trans ihB ?_
      simp only [List.map_append, List.sum_append, List.map_cons, List.sum_cons, ksum,
        List.map_nil, List.sum_nil]
      split <;> split <;>
        simp only [List.map_cons, List.map_nil, List.sum_cons, List.sum_nil] <;> omega
  | case3 r queue acc hk ih =>
    rw [gmbLoop]
    rw [dif_neg hk]
    obtain ⟨ihA, ihB⟩ := ih
    constructor
    · refine le_trans ihA ?_
      simp only [List.map_cons, List.sum_cons]
      omega
    · refine le_trans ihB ?_
      simp only [List.map_cons, List.sum_cons]
      omega

/-- The total matched size of `get_matching_blocks` is bounded by each
side's length. -/
theorem gmb_ksum_le (a b : List Char) :
    ksum (get_matching_blocks a b) ≤ a.length ∧
    ksum (get_matching_blocks a b) ≤ b.length := by
  unfold get_matching_blocks
  have hperm : ((gmbLoop a b [(0, a.length, 0, b.length)] []).mergeSort tripleLe).Perm
      (gmbLoop a b [(0, a.length, 0, b.length)] []) := List.mergeSort_perm _ _
  have hsort : ksum ((gmbLoop a b [(0, a.length, 0, b.length)] []).mergeSort tripleLe)
      = ksum (gmbLoop a b [(0, a.length, 0, b.length)] []) := by
    unfold ksum
    exact (hperm.map _).sum_eq
  have hloop := gmbLoop_ksum_le a b [(0, a.length, 0, b.length)] []
  have hA : ksum (gmbLoop a b [(0, a.length, 0, b.length)] []) ≤ a.length := by
    have := hloop.1
    simpa [ksum] using this
  have hB : ksum (gmbLoop a b [(0, a.length, 0, b.length)] []) ≤ b.length := by
    have := hloop.2
    simpa [ksum] using this
  have hk : ksum (mergeAdjacent 0 0 0
      ((gmbLoop a b [(0, a.length, 0, b.length)] []).mergeSort tripleLe)
      ++ [(a.length, b.length, 0)])
      = ksum ((gmbLoop a b [(0, a.length, 0, b.length)] []).mergeSort tripleLe) := by
    simp [ksum, List.map_append, List.sum_append]
    have := mergeAdjacent_ksum
      ((gmbLoop a b [(0, a.length, 0, b.length)] []).mergeSort tripleLe) 0 0 0
    simpa [ksum] using this
  rw [hk, hsort]
  exact ⟨hA, hB⟩

/-- `ratio()` is nonnegative. -/
theorem ratioQ_nonneg (a b : List Char) : 0 ≤ ratioQ a b := by
  unfold ratioQ calcRQ
  split
  · positivity
  · norm_num

/-- `ratio()` is at most one: the matched size fits in both strings. -/
theorem ratioQ_le_one (a b : List Char) : ratioQ a b ≤ 1 := by
  unfold ratioQ calcRQ
  obtain ⟨hA, hB⟩ := gmb_ksum_le a b
  split
  · rename_i hne
    rw [div_le_one (by positivity)]
    have h2 : 2 * (ksum (get_matching_blocks a b) : ℚ)
        ≤ (a.length : ℚ) + (b.length : ℚ) := by
      have : (2 * ksum (get_matching_blocks a b) : Nat) ≤ a.length + b.length := by omega
      exact_mod_cast this
    push_cast
    linarith
  · exact le_refl 1

theorem mem_positions (b : List Char) (c : Char) (j : Nat) :
    j ∈ positions b c ↔ j < b.length ∧ b.getD j ' ' = c := by
  unfold positions
  rw [List.mem_filter, List.mem_range]
  simp

theorem mem_b2j (b : List Char) (c : Char) (j : Nat) :
    j ∈ b2j b c ↔ popularB b c = false ∧ j < b.length ∧ b.getD j ' ' = c := by
  unfold b2j
  split
  · rename_i h
    simp [h]
  · rename_i h
    simp only [Bool.not_eq_true] at h
    rw [mem_positions]
    simp [h]

theorem b2j_sorted (b : List Char) (c : Char) : (b2j b c).Pairwise (· < ·) := by
  unfold b2j
  split
  · exact List.Pairwise.nil
  · unfold positions
    exact (List.pairwise_lt_range b.length).filter _

/-- The self-comparison chain table: `selfV b i j` is the `j2len` chain
value for the cell ending at row `i - 1`, column `j - 1` when both
sides of the matcher are `b` (zero on the borders). -/
def selfV (b : List Char) : Nat → Nat → Nat
  | 0, _ => 0
  | _ + 1, 0 => 0
  | i + 1, j + 1 => if j ∈ b2j b (b.getD i ' ') then selfV b i j + 1 else 0

theorem selfV_zero (b : List Char) : ∀ i, selfV b i 0 = 0
  | 0 => rfl
  | _ + 1 => rfl

/-- Right of the diagonal, chain values never beat the diagonal one. -/
theorem selfV_le_diag_right (b : List Char) :
    ∀ i j, i ≤ j → i ≤ b.length → selfV b i j ≤ selfV b i i := by
  intro i
  induction i with
  | zero =>
    intro j _ _
    simp [selfV]
  | succ i ih =>
    intro j hij hlen
    obtain ⟨j', rfl⟩ : ∃ j'', j = j'' + 1 := ⟨j - 1, by omega⟩
    simp only [selfV]
    by_cases hmem : j' ∈ b2j b (b.getD i ' ')
    · rw [if_pos hmem]
      obtain ⟨hpop, hjlen, hjc⟩ := (mem_b2j b _ j').mp hmem
      have hi : i ∈ b2j b (b.getD i ' ') := (mem_b2j b _ i).mpr ⟨hpop, by omega, rfl⟩
      rw [if_pos hi]
      have := ih j' (by omega) (by omega)
      omega
    · rw [if_neg hmem]
      exact Nat.zero_le _

/-- Below the diagonal, chain values never beat the column's diagonal
value. -/
theorem selfV_le_diag_left (b : List Char) :
    ∀ j i, j ≤ i → i ≤ b.length → selfV b i j ≤ selfV b j j := by
  intro j
  induction j with
  | zero =>
    intro i _ _
    rw [selfV_zero]
    exact Nat.zero_le _
  | succ j ih =>
    intro i hji hlen
    obtain ⟨i', rfl⟩ : ∃ i'', i = i'' + 1 := ⟨i - 1, by omega⟩
    simp only [selfV]
    by_cases hmem : j ∈ b2j b (b.getD i' ' ')
    · rw [if_pos hmem]
      obtain ⟨hpop, hjlen, hjc⟩ := (mem_b2j b _ j).mp hmem
      have hjj : j ∈ b2j b (b.getD j ' ') := by
        rw [hjc]
        exact hmem
      rw [if_pos hjj]
      have := ih i' (by omega) (by omega)
      omega
    · rw [if_neg hmem]
      exact Nat.zero_le _

/-- Row invariant of the inner loop when both sides are the same list:
the fresh map fills with the next chain row, and the best candidate
stays on the diagonal because an off-diagonal chain value is always
dominated by a diagonal one that is already reflected in `bestsize`. -/
theorem innerLoopSelf (l : List Char) (i : Nat) (hi : i < l.length)
    (j2len : Nat → Nat) (hmap : ∀ j, j2len j = selfV l i (j + 1)) :
    ∀ (js : List Nat) (newm : Nat → Nat) (best : Nat × Nat × Nat),
      js.Sublist (b2j l (l.getD i ' ')) →
      (∀ j2, if j2 ∈ js then newm j2 = 0 else newm j2 = selfV l (i + 1) (j2 + 1)) →
      best.1 = best.2.1 →
      (∀ r, r ≤ i → selfV l r r ≤ best.2.2) →
      (i ∈ js ∨ selfV l (i + 1) (i + 1) ≤ best.2.2) →
      (∀ j2, (innerLoop 0 l.length i j2len js newm best).1 j2 = selfV l (i + 1) (j2 + 1)) ∧
      (innerLoop 0 l.length i j2len js newm best).2.1
        = (innerLoop 0 l.length i j2len js newm best).2.2.1 ∧
      (∀ r, r ≤ i + 1 → selfV l r r ≤ (innerLoop 0 l.length i j2len js newm best).2.2.2) := by
  intro js
  induction js with
  | nil =>
    intro newm best hsub hg hd he hf
    simp only [innerLoop]
    refine ⟨?_, hd, ?_⟩
    · intro j2
      have h := hg j2
      rw [if_neg (List.not_mem_nil j2)] at h
      exact h
    · intro r hr
      rcases Nat.lt_or_ge r (i + 1) with h | h
      · exact he r (by omega)
      · have hreq : r = i + 1 := by omega
        subst hreq
        rcases hf with hfi | hfe
        · exact absurd hfi (List.not_mem_nil i)
        · exact hfe
  | cons j tl ih =>
    intro newm best hsub hg hd he hf
    have hmemj : j ∈ b2j l (l.getD i ' ') := hsub.subset (List.mem_cons_self j tl)
    obtain ⟨hpop, hjlen, hjc⟩ := (mem_b2j l _ j).mp hmemj
    have hpair : (j :: tl).Pairwise (· < ·) :=
      List.Pairwise.sublist hsub (b2j_sorted l (l.getD i ' '))
    have htl : tl.Sublist (b2j l (l.getD i ' ')) := List.sublist_of_cons_sublist hsub
    have hjnottl : j ∉ tl := by
      intro hmem
      have := (List.pairwise_cons.mp hpair).1 j hmem
      omega
    simp only [innerLoop]
    rw [if_neg (by omega : ¬ j < 0)]
    rw [if_neg (by omega : ¬ l.length ≤ j)]
    have hkval : (if j = 0 then 0 else j2len (j - 1)) + 1 = selfV l (i + 1) (j + 1) := by
      have hstep : selfV l (i + 1) (j + 1) = selfV l i j + 1 := by
        simp only [selfV]
        rw [if_pos hmemj]
      rw [hstep]
      by_cases hj0 : j = 0
      · subst hj0
        rw [if_pos rfl, selfV_zero]
      · rw [if_neg hj0, hmap (j - 1)]
        have hj1 : j - 1 + 1 = j := by omega
        rw [hj1]
    simp only [hkval]
    have hg2 : ∀ j2, if j2 ∈ tl
        then (fun j2 => if j2 = j then selfV l (i + 1) (j + 1) else newm j2) j2 = 0
        else (fun j2 => if j2 = j then selfV l (i + 1) (j + 1) else newm j2) j2
          = selfV l (i + 1) (j2 + 1) := by
      intro j2
      by_cases h2 : j2 ∈ tl
      · rw [if_pos h2]
        have hne : j2 ≠ j := fun heq => hjnottl (heq ▸ h2)
        simp only [if_neg hne]
        have h3 := hg j2
        rw [if_pos (List.mem_cons_of_mem j h2)] at h3
        exact h3
      · rw [if_neg h2]
        by_cases h3 : j2 = j
        · subst h3
          simp
        · simp only [if_neg h3]
          have h4 := hg j2
          rw [if_neg (by simp [h3, h2])] at h4
          exact h4
    rcases Nat.lt_trichotomy j i with hji | heq | hij
    · -- j < i: dominated by the already-seen diagonal of column j
      have hnofire : ¬ best.2.2 < selfV l (i + 1) (j + 1) := by
        have h1 : selfV l (i + 1) (j + 1) ≤ selfV l (j + 1) (j + 1) :=
          selfV_le_diag_left l (j + 1) (i + 1) (by omega) (by omega)
        have h2 := he (j + 1) (by omega)
        omega
      rw [if_neg hnofire]
      apply ih _ best htl hg2 hd he
      rcases hf with hin | hle
      · rcases List.mem_cons.mp hin with heq2 | hin2
        · omega
        · exact Or.inl hin2
      · exact Or.inr hle
    · -- j = i: the diagonal cell itself
      subst heq
      by_cases hfire : best.2.2 < selfV l (j + 1) (j + 1)
      · rw [if_pos hfire]
        refine ih _ _ htl hg2 rfl ?_ (Or.inr ?_)
        · intro r hr
          have := he r hr
          dsimp only
          omega
        · dsimp only
          exact le_refl _
      · rw [if_neg hfire]
        apply ih _ best htl hg2 hd he
        right
        omega
    · -- i < j: dominated by this row's diagonal, already processed
      have hinot : i ∉ j :: tl := by
        intro hin
        rcases List.mem_cons.mp hin with heq2 | hin2
        · omega
        · have := (List.pairwise_cons.mp hpair).1 i hin2
          omega
      have hfe : selfV l (i + 1) (i + 1) ≤ best.2.2 := by
        rcases hf with hin | hle
        · exact absurd hin hinot
        · exact hle
      have hnofire : ¬ best.2.2 < selfV l (i + 1) (j + 1) := by
        have h1 : selfV l (i + 1) (j + 1) ≤ selfV l (i + 1) (i + 1) :=
          selfV_le_diag_right l (i + 1) (j + 1) (by omega) (by omega)
        omega
      rw [if_neg hnofire]
      apply ih _ best htl hg2 hd he
      right
      exact hfe

/-- Over a run of full rows on the same list, the best match stays on
the diagonal. -/
theorem mainLoopSelf (l : List Char) :
    ∀ (cnt i : Nat) (j2len : Nat → Nat) (best : Nat × Nat × Nat),
      i + cnt = l.length →
      (∀ j, j2len j = selfV l i (j + 1)) →
      best.1 = best.2.1 →
      (∀ r, r ≤ i → selfV l r r ≤ best.2.2) →
      (mainLoop (b2j l) l 0 l.length (List.range' i cnt) j2len best).2.1
        = (mainLoop (b2j l) l 0 l.length (List.range' i cnt) j2len best).2.2.1 := by
  intro cnt
  induction cnt with
  | zero =>
    intro i j2len best hn hmap hd he
    simpa [mainLoop] using hd
  | succ cnt ih =>
    intro i j2len best hn hmap hd he
    rw [List.range'_succ]
    simp only [mainLoop]
    have hi : i < l.length := by omega
    have hrow := innerLoopSelf l i hi j2len hmap (b2j l (l.getD i ' ')) (fun _ => 0) best
      (List.Sublist.refl _)
      (by
        intro j2
        by_cases h2 : j2 ∈ b2j l (l.getD i ' ')
        · rw [if_pos h2]
        · rw [if_neg h2]
          show (0 : Nat) = selfV l (i + 1) (j2 + 1)
          simp only [selfV]
          rw [if_neg h2])
      hd he
      (by
        by_cases h2 : i ∈ b2j l (l.getD i ' ')
        · exact Or.inl h2
        · right
          simp only [selfV]
          rw [if_neg h2]
          exact Nat.zero_le _)
    exact ih (i + 1) _ _ (by omega) hrow.1 hrow.2.1 hrow.2.2

/-- A diagonal candidate extends backwards all the way to the corner
when the gate predicate always holds and both sides agree. -/
theorem extendBack_self (a : List Char) (p : Char → Bool) (hp : ∀ c, p c = true) :
    ∀ (d m : Nat), extendBack a a 0 0 p d d m = (0, 0, d + m) := by
  intro d
  induction d with
  | zero =>
    intro m
    rw [extendBack]
    rw [dif_neg (by simp)]
    simp
  | succ d ihd =>
    intro m
    rw [extendBack]
    rw [dif_pos ⟨by omega, by omega, hp _, rfl⟩]
    simp only [Nat.add_sub_cancel]
    rw [ihd (m + 1)]
    have harith : d + (m + 1) = d + 1 + m := by omega
    rw [harith]

/-- A corner candidate extends forwards to the full length on the same
list. -/
theorem extendFwd_self (a : List Char) (p : Char → Bool) (hp : ∀ c, p c = true) :
    ∀ (fuel m : Nat), fuel = a.length - m → m ≤ a.length →
      extendFwd a a a.length a.length p 0 0 m = (0, 0, a.length) := by
  intro fuel
  induction fuel with
  | zero =>
    intro m hfuel hm
    have hmeq : m = a.length := by omega
    subst hmeq
    rw [extendFwd]
    rw [dif_neg (by omega)]
  | succ fuel ihf =>
    intro m hfuel hm
    have hlt : m < a.length := by omega
    rw [extendFwd]
    rw [dif_pos ⟨by omega, by omega, hp _, rfl⟩]
    exact ihf (m + 1) (by omega) (by omega)

/-- The junk extension loops are no-ops when the gate predicate is
constantly false. -/
theorem extendBack_falseP (a b : List Char) (alo blo : Nat) (p : Char → Bool)
    (hp : ∀ c, p c = false) (besti bestj bestsize : Nat) :
    extendBack a b alo blo p besti bestj bestsize = (besti, bestj, bestsize) := by
  rw [extendBack]
  rw [dif_neg (by simp [hp])]

theorem extendFwd_falseP (a b : List Char) (ahi bhi : Nat) (p : Char → Bool)
    (hp : ∀ c, p c = false) (besti bestj bestsize : Nat) :
    extendFwd a b ahi bhi p besti bestj bestsize = (besti, bestj, bestsize) := by
  rw [extendFwd]
  rw [dif_neg (by simp [hp])]

/-- `find_longest_match` of a list against itself over the full
rectangle is the whole diagonal. -/
theorem flm_self (l : List Char) :
    find_longest_match l l 0 l.length 0 l.length = (0, 0, l.length) := by
  simp only [find_longest_match]
  set M := (mainLoop (b2j l) l 0 l.length (List.range' 0 (l.length - 0))
    (fun _ => 0) (0, 0, 0)).2 with hM
  have hdiag : M.1 = M.2.1 := by
    rw [hM]
    exact mainLoopSelf l (l.length - 0) 0 (fun _ => 0) (0, 0, 0) (by omega)
      (by intro j; simp [selfV]) rfl
      (by
        intro r hr
        have hreq : r = 0 := by omega
        subst hreq
        simp [selfV])
  have hinit : BestInv 0 0 l.length l.length (0, 0, 0) := by
    refine ⟨le_refl _, le_refl _, ?_, fun _ => ⟨rfl, rfl⟩⟩
    intro h
    simp at h
  have hinv : BestInv 0 0 l.length l.length M := by
    rw [hM]
    exact mainLoop_inv (b2j l) l 0 0 l.length l.length (l.length - 0) 0 _ _
      (le_refl _) (by omega) (by intro j; simp) (by intro j; left; rfl) hinit
  have hle : M.1 + M.2.2 ≤ l.length := by
    rcases hinv with ⟨h1, h2, h3, h4⟩
    by_cases hm : 1 ≤ M.2.2
    · exact (h3 hm).1
    · have hz : M.2.2 = 0 := by omega
      have := (h4 hz).1
      omega
  rw [← hdiag]
  rw [extendBack_self l (fun c => !false) (fun _ => rfl) M.1 M.2.2]
  dsimp only
  rw [extendFwd_self l (fun c => !false) (fun _ => rfl)
    (l.length - (M.1 + M.2.2)) (M.1 + M.2.2) rfl hle]
  dsimp only
  rw [extendBack_falseP l l 0 0 (fun _ => false) (fun _ => rfl) 0 0 l.length]
  dsimp only
  rw [extendFwd_falseP l l l.length l.length (fun _ => false) (fun _ => rfl) 0 0 l.length]

/-- The queue loop on a self-comparison: one diagonal block (or none
for the empty string). -/
theorem gmbLoop_self (l : List Char) :
    gmbLoop l l [(0, l.length, 0, l.length)] []
      = if l.length = 0 then [] else [(0, 0, l.length)] := by
  rw [gmbLoop]
  have hflm : flmAt l l (0, l.length, 0, l.length) = (0, 0, l.length) := flm_self l
  by_cases hn : l.length = 0
  · rw [if_pos hn]
    rw [dif_neg (by rw [hflm]; simp [hn])]
    rw [gmbLoop]
    rfl
  · rw [if_neg hn]
    rw [dif_pos (by rw [hflm]; simpa using Nat.pos_of_ne_zero hn)]
    rw [hflm]
    dsimp only
    rw [if_neg (by omega), if_neg (by omega)]
    simp only [List.nil_append]
    rw [gmbLoop]
    rfl

/-- `ratio()` of a string against itself is exactly one. -/
theorem ratioQ_self (l : List Char) : ratioQ l l = 1 := by
  unfold ratioQ
  by_cases hn : l.length = 0
  · rw [show l.length + l.length = 0 by omega]
    unfold calcRQ
    rw [if_neg (by simp)]
  · have hgmb : get_matching_blocks l l
        = mergeAdjacent 0 0 0 [(0, 0, l.length)] ++ [(l.length, l.length, 0)] := by
      unfold get_matching_blocks
      rw [gmbLoop_self]
      rw [if_neg hn]
      rw [List.mergeSort_singleton]
    have hksum : ksum (get_matching_blocks l l) = l.length := by
      rw [hgmb]
      simp only [ksum, List.map_append, List.sum_append, List.map_cons, List.map_nil,
        List.sum_cons, List.sum_nil]
      have h2 := mergeAdjacent_ksum [(0, 0, l.length)] 0 0 0
      simp only [ksum, List.map_cons, List.map_nil, List.sum_cons, List.sum_nil] at h2
      omega
    rw [hksum]
    unfold calcRQ
    rw [if_pos (by omega)]
    have hpos : (0 : ℚ) < l.length := by
      exact_mod_cast Nat.pos_of_ne_zero hn
    have hsum : (l.length : ℚ) + l.length = 2 * l.length := by ring
    push_cast
    rw [hsum]
    rw [div_self (by positivity)]

/-- A regex `\w` word character (on the ASCII core): alphanumeric or
underscore. -/
def isWordChar (c : Char) : Bool := c.isAlphanum || c = '_'

/-- `str.split()` with no separator: split on whitespace runs, dropping
empty pieces (`cur` is the current word, reversed). -/
def splitWSAux : List Char → List Char → List (List Char)
  | [], cur => if cur.isEmpty then [] else [cur.reverse]
  | c :: cs, cur =>
    if c.isWhitespace then
      if cur.isEmpty then splitWSAux cs [] else cur.reverse :: splitWSAux cs []
    else splitWSAux cs (c :: cur)

/-- `' '.join(words)`. -/
def joinSpace : List (List Char) → List Char
  | [] => []
  | [w] => w
  | w :: ws => w ++ ' ' :: joinSpace ws

/-- `ingredient_db.normalize_for_search`: lower-case, drop characters
matching `[^\w\s]`, and collapse whitespace via
`' '.join(text.split())`. -/
def normalize_for_search (text : String) : String :=
  ⟨joinSpace (splitWSAux
    ((pyLower text).data.filter (fun c => isWordChar c || c.isWhitespace)) [])⟩

/-- `ingredient_db.similarity`: the `SequenceMatcher` ratio of the two
normalized strings. -/
def similarity (a b : String) : ℚ :=
  ratioQ (normalize_for_search a).data (normalize_for_search b).data

/-- One match record of `find_similar_ingredients`. -/
structure SimMatch where
  type : String
  slug : String
  label : String
  language : Option String
  similarity : ℚ
deriving DecidableEq

/-- The label pass of `find_similar_ingredients`: one record per
ingredient whose label similarity strictly exceeds the threshold. -/
def labelMatchesDb (query : String) (threshold : ℚ) (ingredients : List Ingredient) :
    List SimMatch :=
  ingredients.filterMap (fun ing =>
    if threshold < similarity query ing.label then
      some ⟨"ingredient", ing.slug, ing.label, getLangD ing.language,
        similarity query ing.label⟩
    else none)

/-- The alias pass of `find_similar_ingredients`: one record per alias
whose variant-label similarity strictly exceeds the threshold and whose
ingredient id resolves. -/
def aliasMatchesDb (query : String) (threshold : ℚ) (ingById : Int → Option Ingredient)
    (aliases : List Alias) : List SimMatch :=
  aliases.filterMap (fun al =>
    if threshold < similarity query al.variant_label then
      match ingById al.ingredient_id with
      | some ing => some ⟨"alias", ing.slug,
          ing.label ++ " (alias: " ++ al.variant_label ++ ")",
          getLangD al.language, similarity query al.variant_label⟩
      | none => none
    else none)

/-- The raw `matches` list of `find_similar_ingredients` before sorting
and dedup: label matches then alias matches, in pool order. -/
def simPool (master : Master) (query : String) (threshold : ℚ) : List SimMatch :=
  labelMatchesDb query threshold master.ingredients ++
    aliasMatchesDb query threshold (idDictOf master.ingredients) master.aliases

/-- The `seen_slugs` dedup loop: keep a match only if its slug was not
seen before. -/
def dedupBySlug : List String → List SimMatch → List SimMatch
  | _, [] => []
  | seen, m :: ms =>
    if m.slug ∈ seen then dedupBySlug seen ms
    else m :: dedupBySlug (m.slug :: seen) ms

/-- `ingredient_db.find_similar_ingredients`: collect the pool, sort by
similarity descending (Python's stable `sorted(..., reverse=True)`),
and deduplicate by slug keeping the first occurrence. -/
def find_similar_ingredients (master : Master) (query : String) (threshold : ℚ) :
    List SimMatch :=
  dedupBySlug []
    ((simPool master query threshold).mergeSort
      (fun x y => decide (y.similarity ≤ x.similarity)))

/-- `link_ingredients.normalize`: `re.sub(r'[^\w\s]', '',
text.lower().strip())` (renamed: `normalize` itself is taken by
Mathlib). -/
def normalize_simple (text : String) : String :=
  ⟨(pyStrip (pyLower text)).data.filter (fun c => isWordChar c || c.isWhitespace)⟩

/-- One match record of `link_ingredients.find_similar`. -/
structure LinkMatch where
  slug : String
  label : String
  similarity : ℚ
deriving DecidableEq

/-- `link_ingredients.find_similar`: compare the normalized new label
against each existing ingredient's normalized label, keep strict
threshold exceedances, sort by similarity descending. -/
def find_similar (new_label : String) (existing_ingredients : List Ingredient)
    (threshold : ℚ) : List LinkMatch :=
  (existing_ingredients.filterMap (fun existing =>
    if threshold < ratioQ (normalize_simple new_label).data
        (normalize_simple existing.label).data then
      some ⟨existing.slug, existing.label,
        ratioQ (normalize_simple new_label).data (normalize_simple existing.label).data⟩
    else none)).mergeSort (fun x y => decide (y.similarity ≤ x.similarity))

/-- Every pool record's score is a similarity against the query and
strictly exceeds the threshold. -/
theorem mem_simPool (master : Master) (q : String) (t : ℚ) :
    ∀ m ∈ simPool master q t,
      (∃ s : String, m.similarity = similarity q s) ∧ t < m.similarity := by
  intro m hm
  unfold simPool labelMatchesDb aliasMatchesDb at hm
  rcases List.mem_append.mp hm with h | h
  · rcases List.mem_filterMap.mp h with ⟨ing, _, hf⟩
    by_cases hcond : t < similarity q ing.label
    · rw [if_pos hcond] at hf
      cases hf
      exact ⟨⟨ing.label, rfl⟩, hcond⟩
    · rw [if_neg hcond] at hf
      cases hf
  · rcases List.mem_filterMap.mp h with ⟨al, _, hf⟩
    by_cases hcond : t < similarity q al.variant_label
    · rw [if_pos hcond] at hf
      rcases hid : idDictOf master.ingredients al.ingredient_id with _ | ing2
      · rw [hid] at hf
        cases hf
      · rw [hid] at hf
        cases hf
        exact ⟨⟨al.variant_label, rfl⟩, hcond⟩
    · rw [if_neg hcond] at hf
      cases hf

theorem dedupBySlug_sublist :
    ∀ (seen : List String) (l : List SimMatch), (dedupBySlug seen l).Sublist l := by
  intro seen l
  induction l generalizing seen with
  | nil => exact List.Sublist.refl _
  | cons m ms ih =>
    rw [dedupBySlug]
    split
    · exact (ih seen).cons m
    · exact (ih (m.slug :: seen)).cons₂ m

theorem dedupBySlug_not_seen :
    ∀ (seen : List String) (l : List SimMatch),
      ∀ m ∈ dedupBySlug seen l, m.slug ∉ seen := by
  intro seen l
  induction l generalizing seen with
  | nil =>
    intro m hm
    cases hm
  | cons x xs ih =>
    intro m hm
    rw [dedupBySlug] at hm
    by_cases hx : x.slug ∈ seen
    · rw [if_pos hx] at hm
      exact ih seen m hm
    · rw [if_neg hx] at hm
      rcases List.mem_cons.mp hm with rfl | hm2
      · exact hx
      · have := ih (x.slug :: seen) m hm2
        intro hcon
        exact this (List.mem_cons_of_mem _ hcon)

theorem dedupBySlug_nodup :
    ∀ (seen : List String) (l : List SimMatch),
      ((dedupBySlug seen l).map (fun m => m.slug)).Nodup := by
  intro seen l
  induction l generalizing seen with
  | nil => exact List.nodup_nil
  | cons x xs ih =>
    rw [dedupBySlug]
    split
    · exact ih seen
    · rw [List.map_cons]
      rw [List.nodup_cons]
      refine ⟨?_, ih (x.slug :: seen)⟩
      intro hmem
      rcases List.mem_map.mp hmem with ⟨m, hm, hms⟩
      have := dedupBySlug_not_seen (x.slug :: seen) xs m hm
      exact this (by rw [hms]; exact List.mem_cons_self _ _)

/-- On a descending-sorted list, the dedup loop keeps the
highest-scoring occurrence of each slug. -/
theorem dedupBySlug_keeps_max :
    ∀ (seen : List String) (l : List SimMatch),
      l.Pairwise (fun x y => y.similarity ≤ x.similarity) →
      ∀ m ∈ dedupBySlug seen l, ∀ m2 ∈ l, m2.slug = m.slug →
        m2.similarity ≤ m.similarity := by
  intro seen l
  induction l generalizing seen with
  | nil =>
    intro _ m hm
    cases hm
  | cons x xs ih =>
    intro hpair m hm m2 hm2 hslug
    rcases List.pairwise_cons.mp hpair with ⟨hx, hxs⟩
    rw [dedupBySlug] at hm
    by_cases hxseen : x.slug ∈ seen
    · rw [if_pos hxseen] at hm
      rcases List.mem_cons.mp hm2 with rfl | hm2b
      · have := dedupBySlug_not_seen seen xs m hm
        rw [hslug] at hxseen
        exact absurd hxseen this
      · exact ih seen hxs m hm m2 hm2b hslug
    · rw [if_neg hxseen] at hm
      rcases List.mem_cons.mp hm with rfl | hmb
      · rcases List.mem_cons.mp hm2 with rfl | hm2b
        · exact le_refl _
        · exact hx m2 hm2b
      · rcases List.mem_cons.mp hm2 with heq2 | hm2b
        · have hns := dedupBySlug_not_seen (x.slug :: seen) xs m hmb
          rw [← hslug] at hns
          rw [heq2] at hns
          exact absurd (List.mem_cons_self _ _) hns
        · exact ih (x.slug :: seen) hxs m hmb m2 hm2b hslug

theorem simLe_trans (a b c : SimMatch) :
    decide (b.similarity ≤ a.similarity) = true →
    decide (c.similarity ≤ b.similarity) = true →
    decide (c.similarity ≤ a.similarity) = true := by
  simp only [decide_eq_true_eq]
  exact fun h1 h2 => le_trans h2 h1

theorem simLe_total (a b : SimMatch) :
    (decide (b.similarity ≤ a.similarity) || decide (a.similarity ≤ b.similarity)) = true := by
  rcases le_total b.similarity a.similarity with h | h <;> simp [h]

/-- The stable descending sort preserves, slice by similarity value,
the pool order: the elements of any given score come out exactly as
they went in. -/
theorem sorted_filter_eq (master : Master) (q : String) (t s : ℚ) :
    ((simPool master q t).mergeSort
        (fun x y => decide (y.similarity ≤ x.similarity))).filter
      (fun m => decide (m.similarity = s))
    = (simPool master q t).filter (fun m => decide (m.similarity = s)) := by
  have hpairf : ((simPool master q t).filter
      (fun m => decide (m.similarity = s))).Pairwise
        (fun a b => (fun x y => decide (y.similarity ≤ x.similarity)) a b = true) := by
    apply List.pairwise_of_forall_mem_list
    intro a ha b hb
    have ha2 := (List.mem_filter.mp ha).2
    have hb2 := (List.mem_filter.mp hb).2
    simp only [decide_eq_true_eq] at ha2 hb2 ⊢
    rw [ha2, hb2]
  have hsub1 : ((simPool master q t).filter (fun m => decide (m.similarity = s))).Sublist
      ((simPool master q t).mergeSort (fun x y => decide (y.similarity ≤ x.similarity))) :=
    List.sublist_mergeSort simLe_trans simLe_total hpairf
      (List.filter_sublist (simPool master q t))
  have hsub2 := List.Sublist.filter (fun m => decide (m.similarity = s)) hsub1
  have hff : ((simPool master q t).filter (fun m => decide (m.similarity = s))).filter
      (fun m => decide (m.similarity = s))
      = (simPool master q t).filter (fun m => decide (m.similarity = s)) := by
    rw [List.filter_filter]
    congr 1
    funext a
    rw [Bool.and_self]
  rw [hff] at hsub2
  have hperm := (List.mergeSort_perm (simPool master q t)
    (fun x y => decide (y.similarity ≤ x.similarity))).filter
      (fun m => decide (m.similarity = s))
  exact (hsub2.eq_of_length hperm.length_eq.symm).symm

/-- **C7**: the fuzzy matcher of `ingredient_db.py` returns a list
sorted by similarity in non-increasing order; ties are kept in pool
order (each equal-score slice of the result is a subsequence of the
equal-score slice of the pool, which lists label matches before alias
matches in master order); every reported score lies in `[0, 1]`;
`similarity x x = 1` exactly for every string `x`; the result holds at
most one match per slug; and each kept match scores at least as high as
every pool record with the same slug (the highest-scoring occurrence
survives the dedup). -/
theorem find_similar_ingredients_contract :
    (∀ x : String, similarity x x = 1) ∧
    ∀ (master : Master) (query : String) (threshold : ℚ),
      (find_similar_ingredients master query threshold).Pairwise
        (fun x y => y.similarity ≤ x.similarity) ∧
      (∀ s : ℚ,
        ((find_similar_ingredients master query threshold).filter
          (fun m => decide (m.similarity = s))).Sublist
        ((simPool master query threshold).filter
          (fun m => decide (m.similarity = s)))) ∧
      ((find_similar_ingredients master query threshold).all
        (fun m => decide (0 ≤ m.similarity) && decide (m.similarity ≤ 1)) = true) ∧
      (((find_similar_ingredients master query threshold).map (fun m => m.slug)).Nodup) ∧
      ((find_similar_ingredients master query threshold).all (fun m =>
        (simPool master query threshold).all (fun m2 =>
          !(decide (m2.slug = m.slug)) || decide (m2.similarity ≤ m.similarity))) = true) := by
  refine ⟨fun x => ratioQ_self _, ?_⟩
  intro master query threshold
  have hpairP : ((simPool master query threshold).mergeSort
      (fun x y => decide (y.similarity ≤ x.similarity))).Pairwise
        (fun x y => y.similarity ≤ x.similarity) := by
    have := List.sorted_mergeSort simLe_trans simLe_total (simPool master query threshold)
    exact this.imp (fun h => of_decide_eq_true h)
  refine ⟨?_, ?_, ?_, ?_, ?_⟩
  · unfold find_similar_ingredients
    exact List.Pairwise.sublist (dedupBySlug_sublist _ _) hpairP
  · intro s
    rw [← sorted_filter_eq master query threshold s]
    unfold find_similar_ingredients
    exact List.Sublist.filter _ (dedupBySlug_sublist _ _)
  · rw [List.all_eq_true]
    intro m hm
    unfold find_similar_ingredients at hm
    have h1 := (dedupBySlug_sublist _ _).subset hm
    have h2 := List.mem_mergeSort.mp h1
    rcases mem_simPool master query threshold m h2 with ⟨⟨s, hs⟩, _⟩
    simp only [Bool.and_eq_true, decide_eq_true_eq]
    rw [hs]
    exact ⟨ratioQ_nonneg _ _, ratioQ_le_one _ _⟩
  · unfold find_similar_ingredients
    exact dedupBySlug_nodup [] _
  · rw [List.all_eq_true]
    intro m hm
    rw [List.all_eq_true]
    intro m2 hm2
    unfold find_similar_ingredients at hm
    by_cases hsl : m2.slug = m.slug
    · have hlemax := dedupBySlug_keeps_max [] _ hpairP m hm m2
        (List.mem_mergeSort.mpr hm2) hsl
      simp [hsl, hlemax]
    · simp [hsl]

/-- **C10**: the similarity threshold is strictly exclusive in both
consumers: `find_similar_ingredients` (ingredient search) and
`find_similar` (ingestion linking) return a candidate only if its score
is strictly greater than the threshold, so an exact tie with the
threshold is omitted. -/
theorem similarity_threshold_strict :
    (∀ (master : Master) (query : String) (threshold : ℚ),
      (find_similar_ingredients master query threshold).all
        (fun m => decide (threshold < m.similarity)) = true) ∧
    (∀ (new_label : String) (existing : List Ingredient) (threshold : ℚ),
      (find_similar new_label existing threshold).all
        (fun m => decide (threshold < m.similarity)) = true) := by
  constructor
  · intro master query threshold
    rw [List.all_eq_true]
    intro m hm
    unfold find_similar_ingredients at hm
    have h1 := (dedupBySlug_sublist _ _).subset hm
    have h2 := List.mem_mergeSort.mp h1
    rcases mem_simPool master query threshold m h2 with ⟨_, hlt⟩
    simpa using hlt
  · intro new_label existing threshold
    rw [List.all_eq_true]
    intro m hm
    unfold find_similar at hm
    have h1 := List.mem_mergeSort.mp hm
    rcases List.mem_filterMap.mp h1 with ⟨ex, _, hf⟩
    by_cases hcond : threshold < ratioQ (normalize_simple new_label).data
        (normalize_simple ex.label).data
    · rw [if_pos hcond] at hf
      cases hf
      simpa using hcond
    · rw [if_neg hcond] at hf
      cases hf
